import Mathlib

/-!
Verification of the storage-engine core of a CMU 15-445 style database
implementation.  Each section embeds a subsystem of the C++ source as
executable Lean definitions and proves (or refutes) the frozen claims
about it: the disk manager, the slotted table page, the buffer pool
manager, the tuple lock manager, the transaction manager, and the
concurrent B+tree index.
-/

namespace Cmudb

/-- PAGE_SIZE from the source configuration (4096 bytes). -/
def PAGE_SIZE : Nat := 4096

/-! ## Disk manager: DiskManager::ReadPage (disk_manager.cpp)

The database file is modelled as its list of bytes.  ReadPage computes
the byte offset, logs an I/O error and returns without touching the
buffer when the offset lies strictly beyond the file size, and
otherwise reads up to PAGE_SIZE bytes and zero-fills the remainder of
the caller buffer (the memset after gcount).  The early-return error
branch is modelled as `none`.  The source computes the offset in a
C `int`; theorems assume the product does not overflow. -/

/-- Model of DiskManager::ReadPage.  The returned buffer corresponds to
the PAGE_SIZE bytes of page_data after the call; `none` is the branch
that logs the read error and performs no read. -/
def readPage (file : List Nat) (pageId : Int) : Option (List Nat) :=
  let offset : Int := pageId * (PAGE_SIZE : Int)
  if offset > (file.length : Int) then
    none
  else
    let readCount : Nat := min PAGE_SIZE (file.length - offset.toNat)
    some ((file.drop offset.toNat).take PAGE_SIZE ++
          List.replicate (PAGE_SIZE - readCount) 0)

/-! ## Slotted table page: TablePage::GetTuple (table_page.cpp)

A table page stores a slot directory of (offset, size) pairs; size < 0
marks a tombstone left by MarkDelete, size = 0 a reclaimed empty slot.
GetTuple checks the slot number against the tuple count, then the slot
size, before it even looks at the lock sets, so a non-positive slot is
unreadable by every transaction including the tombstoning one. -/

/-- Transaction states from transaction.h. -/
inductive TxnState where
  | GROWING
  | SHRINKING
  | COMMITTED
  | ABORTED
deriving DecidableEq, Repr

/-- A record id: (page id, slot number). -/
structure RID where
  pageId : Int
  slotNum : Nat
deriving DecidableEq, Repr

/-- The transaction fields used by the table page and lock code. -/
structure Txn where
  id : Nat
  state : TxnState
  sharedSet : List RID
  exclusiveSet : List RID
deriving Repr

/-- A slotted table page: the slot directory (offset, size) and the raw
payload bytes; GetTupleCount is the directory length. -/
structure TablePage where
  slots : List (Int × Int)
  bytes : List Nat
deriving Repr

/-- A tuple as copied out by GetTuple: its bytes and rid. -/
structure Tup where
  data : List Nat
  rid : RID
deriving Repr

/-- Model of TablePage::GetTuple.  Returns (return value, updated txn,
copied-out tuple).  `lockSharedOk` stands for the result of the
LockShared call when the txn holds neither lock (the lock manager is
modelled separately); on a false LockShared the function returns false
without copying.  When ENABLE_LOGGING is false no lock is taken. -/
def tablePageGetTuple (page : TablePage) (rid : RID) (txn : Txn)
    (enableLogging : Bool) (lockSharedOk : Bool) :
    Bool × Txn × Option Tup :=
  let slotNum := rid.slotNum
  if slotNum ≥ page.slots.length then
    (false, if enableLogging then { txn with state := .ABORTED } else txn, none)
  else
    let tupleSize := (page.slots.getD slotNum (0, 0)).2
    if tupleSize ≤ 0 then
      (false, if enableLogging then { txn with state := .ABORTED } else txn, none)
    else
      if enableLogging ∧ rid ∉ txn.exclusiveSet ∧ rid ∉ txn.sharedSet ∧
          ¬ lockSharedOk then
        (false, txn, none)
      else
        let tupleOffset := (page.slots.getD slotNum (0, 0)).1
        let txn2 := if enableLogging ∧ rid ∉ txn.exclusiveSet ∧
            rid ∉ txn.sharedSet then
          { txn with sharedSet := txn.sharedSet ++ [rid] } else txn
        (true, txn2,
         some { data := (page.bytes.drop tupleOffset.toNat).take tupleSize.toNat
                rid := rid })

/-- Model of TableHeap::GetTuple: fetches the page, calls the page-level
GetTuple under the reader latch, and on a false result additionally
sets the transaction state to ABORTED unconditionally. -/
def tableHeapGetTuple (page : TablePage) (rid : RID) (txn : Txn)
    (enableLogging : Bool) (lockSharedOk : Bool) :
    Bool × Txn × Option Tup :=
  let res := tablePageGetTuple page rid txn enableLogging lockSharedOk
  if res.1 then res
  else (false, { res.2.1 with state := .ABORTED }, res.2.2)

/-! ## Buffer pool manager: BufferPoolManager::DeletePage (buffer_pool_manager.cpp)

The pool owns an array of frames, a page table mapping page ids to
frames (the extendible hash, modelled as an association list with
unique keys), a free list of frame indices and the LRU replacer
(a list of frame indices).  DeletePage looks the page up in the table
and, when found, removes the mapping, resets the frame metadata
(page id := INVALID, dirty := false — the pin count is not touched),
erases the frame from the replacer, calls the disk manager
DeallocatePage (a no-op) and pushes the frame on the free list.  The
source performs no pin-count check, although its own doc comment says
a pinned page must make it return false. -/

/-- A buffer-pool frame: the Page bookkeeping fields. -/
structure Frame where
  pageId : Int
  pinCount : Nat
  isDirty : Bool
deriving DecidableEq, Repr

/-- The buffer pool state used by DeletePage. -/
structure BufferPool where
  frames : List Frame
  pageTable : List (Int × Nat)
  freeList : List Nat
  replacer : List Nat
deriving DecidableEq, Repr

/-- HashTable.Find on the page table: first mapping for the page id. -/
def ptFind (pt : List (Int × Nat)) (pid : Int) : Option Nat :=
  (pt.find? (fun e => e.1 == pid)).map (·.2)

/-- HashTable.Remove on the page table. -/
def ptRemove (pt : List (Int × Nat)) (pid : Int) : List (Int × Nat) :=
  pt.filter (fun e => ¬ (e.1 == pid))

/-- Model of BufferPoolManager::DeletePage.  Returns (return value, new
state).  Mirrors the source exactly: when the page id is found, the
mapping is removed, the frame page id is set to INVALID_PAGE_ID and its
dirty flag cleared, the frame is erased from the replacer and pushed to
the free list, and true is returned — the pin count is never consulted. -/
def deletePage (bp : BufferPool) (pid : Int) : Bool × BufferPool :=
  match ptFind bp.pageTable pid with
  | none => (false, bp)
  | some f =>
    let fr := bp.frames.getD f { pageId := -1, pinCount := 0, isDirty := false }
    (true,
     { frames := bp.frames.set f { fr with pageId := -1, isDirty := false }
       pageTable := ptRemove bp.pageTable pid
       freeList := bp.freeList ++ [f]
       replacer := bp.replacer.filter (fun x => ¬ (x == f)) })

/-! ## Lock manager (lock_manager.cpp)

Per-RID wait lists of requests (txn id, mode, granted), with the count
of queued exclusive requests and the smallest txn id ever queued
(`oldest`, used for wait-die).  Each entry point is modelled up to its
condition-variable wait: the outcome distinguishes the two false
returns (already-aborted entry check, wait-die kill), an immediate
grant (the wait predicate already holds), and a wait (the thread
blocks on the condition variable).  LockUpgrade has a third false
return, the wait-die loop that returns without aborting the txn. -/

inductive LockMode where
  | SHARED
  | EXCLUSIVE
deriving DecidableEq, Repr

/-- An entry of a RID wait list. -/
structure Request where
  txnId : Nat
  mode : LockMode
  granted : Bool
deriving DecidableEq, Repr

/-- The per-RID wait list with its wait-die bookkeeping. -/
structure WaitList where
  list : List Request
  exclusiveCnt : Nat
  oldest : Nat
deriving DecidableEq, Repr

/-- Outcome of a lock entry point, split at the condition variable. -/
inductive LockOutcome where
  | refusedAborted
  | died
  | grantedNow
  | waiting
deriving DecidableEq, Repr

/-- Whether an outcome corresponds to `return false` in the source. -/
def LockOutcome.returnsFalse : LockOutcome → Bool
  | .refusedAborted => true
  | .died => true
  | _ => false

/-- The LockShared wait predicate: walk the list; every entry before the
requester must be a granted SHARED request. -/
def sharedWaitPred (l : List Request) (tid : Nat) : Bool :=
  match l with
  | [] => false
  | r :: rs =>
    if r.txnId = tid then true
    else if r.mode = .SHARED ∧ r.granted then sharedWaitPred rs tid
    else false

/-- Mark the first request of the given txn granted (cur->granted = true). -/
def grantFirst (l : List Request) (tid : Nat) : List Request :=
  match l with
  | [] => []
  | r :: rs =>
    if r.txnId = tid then { r with granted := true } :: rs
    else r :: grantFirst rs tid

/-- Model of LockManager::LockShared: the aborted-entry check, the
wait-die check (kill when a conflicting exclusive request is queued and
the requester is younger than `oldest`), the `oldest` update, the
enqueue, and the condition-variable predicate.  On an immediate grant
the entry is marked granted and the rid joins the shared set (the rid
bookkeeping is kept in `Txn`). -/
def lockShared (wl? : Option WaitList) (t : Txn) (rid : RID) :
    LockOutcome × Txn × Option WaitList :=
  if t.state = .ABORTED then (.refusedAborted, t, wl?)
  else
    match wl? with
    | none =>
      let wl : WaitList :=
        { list := [{ txnId := t.id, mode := .SHARED, granted := false }]
          exclusiveCnt := 0
          oldest := t.id }
      -- a fresh list: the requester is the sole entry, the predicate holds
      (.grantedNow,
       { t with sharedSet := t.sharedSet ++ [rid] },
       some { wl with list := grantFirst wl.list t.id })
    | some wl =>
      if wl.exclusiveCnt ≠ 0 ∧ t.id > wl.oldest then
        (.died, { t with state := .ABORTED }, some wl)
      else
        let wl :=
          { wl with
            oldest := if wl.oldest > t.id then t.id else wl.oldest
            list := wl.list ++ [{ txnId := t.id, mode := .SHARED, granted := false }] }
        if sharedWaitPred wl.list t.id then
          (.grantedNow,
           { t with sharedSet := t.sharedSet ++ [rid] },
           some { wl with list := grantFirst wl.list t.id })
        else
          (.waiting, t, some wl)

/-- Mark the front request granted (list.front().granted = true). -/
def grantFront (l : List Request) : List Request :=
  match l with
  | [] => []
  | r :: rs => { r with granted := true } :: rs

/-- Model of LockManager::LockExclusive: the aborted-entry check, the
wait-die check (kill whenever the requester is younger than `oldest`),
the `oldest` update, the enqueue, the exclusive_cnt increment, and the
head-of-list wait predicate. -/
def lockExclusive (wl? : Option WaitList) (t : Txn) (rid : RID) :
    LockOutcome × Txn × Option WaitList :=
  if t.state = .ABORTED then (.refusedAborted, t, wl?)
  else
    match wl? with
    | none =>
      let wl : WaitList :=
        { list := [{ txnId := t.id, mode := .EXCLUSIVE, granted := false }]
          exclusiveCnt := 1
          oldest := t.id }
      -- sole entry: it is the front, so the wait predicate holds
      (.grantedNow,
       { t with exclusiveSet := t.exclusiveSet ++ [rid] },
       some { wl with list := grantFront wl.list })
    | some wl =>
      if t.id > wl.oldest then
        (.died, { t with state := .ABORTED }, some wl)
      else
        let wl :=
          { wl with
            oldest := t.id
            list := wl.list ++ [{ txnId := t.id, mode := .EXCLUSIVE, granted := false }]
            exclusiveCnt := wl.exclusiveCnt + 1 }
        if (wl.list.headD { txnId := t.id, mode := .EXCLUSIVE, granted := false }).txnId
            = t.id then
          (.grantedNow,
           { t with exclusiveSet := t.exclusiveSet ++ [rid] },
           some { wl with list := grantFront wl.list })
        else
          (.waiting, t, some wl)

/-- Index of the requester entry in the wait list (`src` in the source);
the loop keeps the last matching iterator, but txn ids occur at most
once, so the first match is taken. -/
def findSrcIdx (l : List Request) (tid : Nat) : Option Nat :=
  l.findIdx? (fun r => r.txnId = tid)

/-- Index of `tgt`: the first EXCLUSIVE entry at or after `src`; `none`
models `tgt = list.end()`. -/
def findTgtIdx (l : List Request) (srcIdx : Nat) : Option Nat :=
  match (l.drop srcIdx).findIdx? (fun r => r.mode = .EXCLUSIVE) with
  | none => none
  | some j => some (srcIdx + j)

/-- The LockUpgrade wait-die loop: walk the entries from the beginning
up to (excluding) `tgt` and fail when any has a smaller txn id than the
requester.  `none` for tgt means the whole list is scanned. -/
def upgradeDieCheck (l : List Request) (tgtIdx : Option Nat) (srcId : Nat) : Bool :=
  let prefix_ := match tgtIdx with
    | none => l
    | some j => l.take j
  prefix_.any (fun r => r.txnId < srcId)

/-- Relocate the requester entry: a copy with granted := false and mode
EXCLUSIVE is inserted before `tgt`, then the original is erased. -/
def upgradeRelocate (l : List Request) (srcIdx : Nat) (tgtIdx : Option Nat)
    (req : Request) : List Request :=
  let inserted := match tgtIdx with
    | none => l ++ [req]
    | some j => l.take j ++ req :: l.drop j
  -- erase the original src entry: it is the first entry with its txn id
  -- among those of mode SHARED located before the inserted copy
  inserted.eraseIdx srcIdx

/-- Model of LockManager::LockUpgrade: the aborted-entry check, locating
src and tgt, the wait-die loop that returns false WITHOUT setting the
transaction state, the relocation of the request as an ungranted
EXCLUSIVE entry before tgt, and the head-of-list wait predicate.  On an
immediate grant the rid moves from the shared to the exclusive set. -/
def lockUpgrade (wl? : Option WaitList) (t : Txn) (rid : RID) :
    LockOutcome × Txn × Option WaitList :=
  if t.state = .ABORTED then (.refusedAborted, t, wl?)
  else
    let wl := wl?.getD { list := [], exclusiveCnt := 0, oldest := 0 }
    match findSrcIdx wl.list t.id with
    | none => (.waiting, t, some wl)  -- src = end(): the source asserts here
    | some srcIdx =>
      let tgtIdx := findTgtIdx wl.list srcIdx
      if upgradeDieCheck wl.list tgtIdx t.id then
        (.died, t, some wl)  -- return false without touching the txn state
      else
        let src := wl.list.getD srcIdx { txnId := t.id, mode := .SHARED, granted := false }
        let req := { src with granted := false, mode := .EXCLUSIVE }
        let newList := upgradeRelocate wl.list srcIdx tgtIdx req
        let wl := { wl with list := newList }
        if (wl.list.headD req).txnId = t.id then
          (.grantedNow,
           { t with
             sharedSet := t.sharedSet.filter (fun x => ¬ (x == rid))
             exclusiveSet := t.exclusiveSet ++ [rid] },
           some { wl with list := grantFront wl.list })
        else
          (.waiting, t, some wl)

/-- Model of LockManager::Unlock on one wait list (strict 2PL state
transitions aside): erase the first entry of the txn, decrementing
exclusive_cnt when it was exclusive. -/
def unlockWL (wl : WaitList) (tid : Nat) : WaitList :=
  match findSrcIdx wl.list tid with
  | none => wl
  | some i =>
    let r := wl.list.getD i { txnId := tid, mode := .SHARED, granted := false }
    { wl with
      list := wl.list.eraseIdx i
      exclusiveCnt := if r.mode = .EXCLUSIVE then wl.exclusiveCnt - 1
        else wl.exclusiveCnt }

/-- The lock-table operations on a single RID wait list, used to define
which wait-list states are reachable. -/
inductive LockOp where
  | shared (t : Txn) (rid : RID)
  | exclusive (t : Txn) (rid : RID)
  | upgrade (t : Txn) (rid : RID)
  | unlock (tid : Nat)

/-- Apply one lock-table operation to the (possibly absent) wait list of
a RID, keeping only the resulting wait list. -/
def applyLockOp (wl? : Option WaitList) (op : LockOp) : Option WaitList :=
  match op with
  | .shared t rid => (lockShared wl? t rid).2.2
  | .exclusive t rid => (lockExclusive wl? t rid).2.2
  | .upgrade t rid => (lockUpgrade wl? t rid).2.2
  | .unlock tid => match wl? with
    | none => none
    | some wl => some (unlockWL wl tid)

/-- The wait-list states reachable from an untouched RID. -/
inductive WLReach : Option WaitList → Prop where
  | init : WLReach none
  | step (op : LockOp) : WLReach wl? → WLReach (applyLockOp wl? op)

/-! ## Transaction manager: TransactionManager::Commit (transaction_manager.cpp)

Commit is modelled as the trace of the externally visible actions it
performs, in program order: the state change, ApplyDelete on every
DELETE entry of the write set walked back-to-front, the COMMIT log
append followed by the wait for the persistent LSN, and the Unlock of
every rid in the union of the two lock sets. -/

inductive WType where
  | INSERT
  | DELETE
  | UPDATE
deriving DecidableEq, Repr

/-- A write-set record (the table pointer is immaterial here). -/
structure WriteRec where
  rid : RID
  wtype : WType
deriving DecidableEq, Repr

inductive LogRecType where
  | BEGIN
  | COMMIT
  | ABORT
deriving DecidableEq, Repr

/-- An externally visible action of the transaction manager. -/
inductive CAction where
  | setState (s : TxnState)
  | applyDelete (rid : RID)
  | appendLog (ty : LogRecType) (lsn : Nat)
  | waitPersistent (lsn : Nat)
  | unlock (rid : RID)
deriving DecidableEq, Repr

/-- The write-set walk of Commit: pop from the back, ApplyDelete for
DELETE entries, until the set is empty. -/
def commitWriteSetWalk : List WriteRec → List CAction
  | [] => []
  | w :: ws =>
    let item := (w :: ws).getLast (List.cons_ne_nil w ws)
    (if item.wtype = .DELETE then [CAction.applyDelete item.rid] else []) ++
      commitWriteSetWalk (w :: ws).dropLast
termination_by l => l.length
decreasing_by
  simp [List.length_dropLast]

/-- The union of the shared and exclusive lock sets as iterated by the
lock_set unordered_set (deduplicated). -/
def lockSetUnion (t : Txn) : List RID :=
  (t.sharedSet ++ t.exclusiveSet).dedup

/-- Model of TransactionManager::Commit.  `nextLsn` is the LSN the log
manager assigns to the COMMIT record.  Returns the updated transaction
and the action trace in program order; the wait action records the LSN
the loop compares against persistent_lsn (the txn prev_lsn after the
COMMIT append). -/
def commit (t : Txn) (writeSet : List WriteRec) (prevLsn : Nat)
    (enableLogging : Bool) (nextLsn : Nat) :
    Txn × Nat × List CAction :=
  let t1 := { t with state := .COMMITTED }
  let deleteActs := commitWriteSetWalk writeSet
  let (prevLsn2, logActs) :=
    if enableLogging then
      (nextLsn, [CAction.appendLog .COMMIT nextLsn, CAction.waitPersistent nextLsn])
    else (prevLsn, [])
  let unlockActs := (lockSetUnion t).map CAction.unlock
  ({ t1 with state := .COMMITTED }, prevLsn2,
   CAction.setState .COMMITTED :: deleteActs ++ logActs ++ unlockActs)

/-! ## B+tree latch coupling: BPlusTree::isSafe and FindLeafPage (b_plus_tree.cpp)

FindLeafPage descends from the root; for insert and delete it takes
the child writer latch and, when the child is "safe", releases and
unpins every page in the transaction page set before adding the child.
The lab3 isSafe has its min/max size checks commented out and returns
true unconditionally. -/

/-- The tree operations of the latch-coupling descent. -/
inductive TreeOpKind where
  | READONLY
  | INSERT
  | DELETE
deriving DecidableEq, Repr

/-- The size header a node exposes to isSafe. -/
structure NodeHdr where
  pid : Nat
  size : Nat
  maxSize : Nat
  minSize : Nat
deriving DecidableEq, Repr

/-- Model of BPlusTree::isSafe (lab3 version): the insert and delete
size checks are commented out in the source and every node is reported
safe. -/
def isSafe (_node : NodeHdr) (_op : TreeOpKind) : Bool := true

/-- One step of the FindLeafPage loop acting on the transaction page
set: the child is latched, the set is released in full when the child
is safe and the operation is structural, then the child is appended. -/
def descendStep (held : List NodeHdr) (child : NodeHdr) (op : TreeOpKind) :
    List NodeHdr :=
  (if op ≠ TreeOpKind.READONLY ∧ isSafe child op then [] else held) ++ [child]

/-- The successive values of the transaction page set during the
descent: the root is latched and added first, then each level applies
`descendStep`. -/
def descendHeldTrace (root : NodeHdr) (rest : List NodeHdr) (op : TreeOpKind) :
    List (List NodeHdr) :=
  rest.scanl (fun held child => descendStep held child op) [root]

/-! ## B+tree index (b_plus_tree.cpp with b_plus_tree_leaf_page.cpp and
b_plus_tree_internal_page.cpp)

Keys are fixed-width integers under GenericComparator, modelled as
naturals with the natural order; RIDs are modelled as naturals.  A leaf
page holds the live prefix of its (key, RID) array, of length
key_size, plus the legacy size_ field inherited from BPlusTreePage
(the reworked leaf code keeps its element count in the derived-class
key_size; size_ is zeroed when the frame is zeroed by NewPage and the
live leaf code never updates it, but RemoveAndDeleteRecord still reads
and writes it).  An internal page holds child 0 and the (key, child)
pairs of slots 1 and up; the key of slot 0 is unused.  Parent page ids
are represented by the recursive structure itself: the slot the
descent took is the slot InsertNodeAfter finds via the (unique) page
id of the split child. -/

abbrev Key := Nat
abbrev Rid := Nat

/-- A B+tree node. -/
inductive BPT where
  | leaf (kvs : List (Key × Rid)) (size0 : Nat)
  | node (c0 : BPT) (rest : List (Key × BPT))

/-- Default element for out-of-range array reads. -/
def dfltLeaf : BPT := .leaf [] 0

/-- Default (key, child) slot for out-of-range array reads. -/
def dfltPair : Key × BPT := (0, dfltLeaf)

/-- The child at value slot `i` of an internal page. -/
def childAt (c0 : BPT) (rest : List (Key × BPT)) (i : Nat) : BPT :=
  if i = 0 then c0 else (rest.getD (i - 1) dfltPair).2

/-- The binary-search loop of BPlusTreeLeafPage::Lookup, with the C int
cursors modelled as integers. -/
def leafLookupLoop (kvs : List (Key × Rid)) (key : Key) (low high : Int) :
    Option Rid :=
  if _h : low ≤ high then
    let mid := low + (high - low) / 2
    let e := kvs.getD mid.toNat (0, 0)
    if key > e.1 then leafLookupLoop kvs key (mid + 1) high
    else if key < e.1 then leafLookupLoop kvs key low (mid - 1)
    else some e.2
  else none
termination_by (high + 1 - low).toNat
decreasing_by
  · omega
  · omega

/-- Model of BPlusTreeLeafPage::Lookup: the range guard followed by the
binary search over the live prefix (GetKeySize() = kvs.length). -/
def leafLookup (kvs : List (Key × Rid)) (key : Key) : Option Rid :=
  if kvs.length = 0 then none
  else if key < (kvs.getD 0 (0, 0)).1 then none
  else if key > (kvs.getD (kvs.length - 1) (0, 0)).1 then none
  else leafLookupLoop kvs key 0 ((kvs.length : Int) - 1)

/-- The position-finding loop of BPlusTreeLeafPage::Insert (the middle
case); the loop narrows [low, high] and the caller inserts at `high`.
The equal-keys branch is the assert(0) of the source: it is unreachable
because the caller rejects duplicates. -/
def leafInsertLoop (kvs : List (Key × Rid)) (key : Key) (low high : Int) : Int :=
  if _h : low < high ∧ low + 1 ≠ high then
    let mid := low + (high - low) / 2
    let e := kvs.getD mid.toNat (0, 0)
    if key < e.1 then leafInsertLoop kvs key low mid
    else if key > e.1 then leafInsertLoop kvs key mid high
    else high
  else high
termination_by (high - low).toNat
decreasing_by
  · omega
  · omega

/-- Model of BPlusTreeLeafPage::Insert: append when the key exceeds the
last key or the page is empty, prepend after a full shift when it is
below the first key, and otherwise insert at the position the binary
loop finds (memmove shifts the tail right by one slot). -/
def leafInsert (kvs : List (Key × Rid)) (key : Key) (v : Rid) :
    List (Key × Rid) :=
  if kvs.length = 0 then kvs ++ [(key, v)]
  else if key > (kvs.getD (kvs.length - 1) (0, 0)).1 then kvs ++ [(key, v)]
  else if key < (kvs.getD 0 (0, 0)).1 then (key, v) :: kvs
  else
    let h := (leafInsertLoop kvs key 0 ((kvs.length : Int) - 1)).toNat
    kvs.take h ++ (key, v) :: kvs.drop h

/-- The binary-search loop of BPlusTreeInternalPage::Lookup over slots
[1, GetValueSize()-1]; array[i].first for i ≥ 1 is ks[i-1]. -/
def internalLookupLoop (ks : List Key) (key : Key) (low high : Int) : Int :=
  if _h : low < high ∧ low + 1 ≠ high then
    let mid := low + (high - low) / 2
    let mk := ks.getD (mid.toNat - 1) 0
    if key < mk then internalLookupLoop ks key low mid
    else if key > mk then internalLookupLoop ks key mid high
    else mid
  else low
termination_by (high - low).toNat
decreasing_by
  · omega
  · omega

/-- Model of BPlusTreeInternalPage::Lookup, returning the value-slot
index of the chosen child (the source returns array[i].second).  ks is
the list of keys of slots 1 and up, so GetValueSize() = ks.length + 1;
the source asserts GetValueSize() > 1, a single-child page (reachable
only at order 2) is mapped to child 0 as the commented sequential scan
would do. -/
def internalLookupIdx (ks : List Key) (key : Key) : Nat :=
  let vsize := ks.length + 1
  if vsize ≤ 1 then 0
  else if key < ks.getD 0 0 then 0
  else if key ≥ ks.getD (vsize - 2) 0 then vsize - 1
  else (internalLookupLoop ks key 1 ((vsize : Int) - 1)).toNat

/-- Result of the recursive insertion: duplicate key rejected, an
updated node, or a split (updated old node, separator pushed up, new
node) to be handled by InsertIntoParent one level up. -/
inductive InsRes where
  | dup
  | one (t : BPT)
  | split (l : BPT) (k : Key) (r : BPT)

/-- Replace the child of value slot `i` (the slot the descent took,
located in the source through the page id of the old child). -/
def setChild (c0 : BPT) (rest : List (Key × BPT)) (i : Nat) (c : BPT) :
    BPT × List (Key × BPT) :=
  if i = 0 then (c, rest)
  else (c0, rest.set (i - 1) ((rest.getD (i - 1) dfltPair).1, c))

/-- BPlusTreeInternalPage::InsertNodeAfter: the (key, child) pair of the
split-off node is inserted right after the slot holding the old child,
i.e. at array slot i + 1, which is index i of `rest`. -/
def insertNodeAfter (rest : List (Key × BPT)) (i : Nat) (k : Key) (c : BPT) :
    List (Key × BPT) :=
  rest.take i ++ (k, c) :: rest.drop i

/-- BPlusTreeInternalPage::MoveHalfTo as used by BPlusTree::Split on an
overflowing internal page: keysize = GetValueSize() - 1, the upper
more_half = (keysize+1)/2 slots move to the new page (their first
slot key becomes the unused slot-0 key and is pushed up as the
separator, InsertIntoParent is called with internal2->KeyAt(0)),
the lower less_half slots stay. -/
def splitInternal (c0 : BPT) (rest : List (Key × BPT)) : BPT × Key × BPT :=
  let keysize := rest.length
  let moreHalf := (keysize + 1) / 2
  let lessHalf := (rest.length + 1) - moreHalf
  let leftRest := rest.take (lessHalf - 1)
  let midPair := rest.getD (lessHalf - 1) dfltPair
  let rightRest := rest.drop lessHalf
  (.node c0 leftRest, midPair.1, .node midPair.2 rightRest)

mutual

/-- The point query BPlusTree::GetValue: FindLeafPage descends with
InternalPage::Lookup at every internal node and the leaf performs its
binary search. -/
def getValue (t : BPT) (key : Key) : Option Rid :=
  match t with
  | .leaf kvs _ => leafLookup kvs key
  | .node c0 rest =>
    let i := internalLookupIdx (rest.map Prod.fst) key
    if i = 0 then getValue c0 key else getValueChild rest (i - 1) key

/-- Continue GetValue in the child at index `j` of the slot list; an
out-of-range index cannot be produced by Lookup. -/
def getValueChild (rest : List (Key × BPT)) (j : Nat) (key : Key) :
    Option Rid :=
  match rest, j with
  | [], _ => none
  | (_, c) :: _, 0 => getValue c key
  | _ :: rs, j + 1 => getValueChild rs j key

end

mutual

/-- The insertion path of BPlusTree::InsertIntoLeaf, Split and
InsertIntoParent, as a recursive function: descend to the leaf chosen
by Lookup, reject duplicates, insert sorted; when the leaf key count
reaches the order, split it (MoveHalfTo keeps the lower
GetKeySize()/2 pairs and moves the upper half, the new leaf first key
is pushed up); a parent that exceeds the order after InsertNodeAfter
splits in turn. -/
def insertAux (M : Nat) (t : BPT) (key : Key) (v : Rid) : InsRes :=
  match t with
  | .leaf kvs s0 =>
    match leafLookup kvs key with
    | some _ => .dup
    | none =>
      let kvs2 := leafInsert kvs key v
      if kvs2.length ≥ M then
        let half := kvs2.length / 2
        .split (.leaf (kvs2.take half) s0) ((kvs2.getD half (0, 0)).1)
          (.leaf (kvs2.drop half) 0)
      else .one (.leaf kvs2 s0)
  | .node c0 rest =>
    let i := internalLookupIdx (rest.map Prod.fst) key
    let res := if i = 0 then insertAux M c0 key v
      else insertAuxChild M rest (i - 1) key v
    match res with
    | .dup => .dup
    | .one c2 =>
      let s := setChild c0 rest i c2
      .one (.node s.1 s.2)
    | .split cl sk cr =>
      let s := setChild c0 rest i cl
      let restc := insertNodeAfter s.2 i sk cr
      if restc.length + 1 > M then
        let sp := splitInternal s.1 restc
        .split sp.1 sp.2.1 sp.2.2
      else .one (.node s.1 restc)

/-- Descend the insertion into the child at index `j` of the slot list;
an out-of-range index cannot be produced by Lookup (the sentinel result
for the empty list is never used). -/
def insertAuxChild (M : Nat) (rest : List (Key × BPT)) (j : Nat) (key : Key)
    (v : Rid) : InsRes :=
  match rest, j with
  | [], _ => .dup
  | (_, c) :: _, 0 => insertAux M c key v
  | _ :: rs, j + 1 => insertAuxChild M rs j key v

end

/-- BPlusTree::Insert: an empty tree starts a new root leaf
(StartNewTree); otherwise InsertIntoLeaf runs and a split reaching the
root creates a new internal root via PopulateNewRoot.  Returns (return
value, new root). -/
def treeInsert (M : Nat) (root : Option BPT) (key : Key) (v : Rid) :
    Bool × Option BPT :=
  match root with
  | none => (true, some (.leaf [(key, v)] 0))
  | some t =>
    match insertAux M t key v with
    | .dup => (false, some t)
    | .one t2 => (true, some t2)
    | .split l k r => (true, some (.node l [(k, r)]))

/-- The binary-search loop of BPlusTreeLeafPage::RemoveAndDeleteRecord.
This routine still operates on the legacy size_ field (GetSize,
IncreaseSize) rather than key_size: `s0` is that field.  When the key
is found the memmove shifts the GetSize()-mid-1 entries after mid left
by one — the live array length (key_size) does not change and the
entry at index s0-1 is duplicated — and s0 is decremented. -/
def leafRemoveLoop (kvs : List (Key × Rid)) (s0 : Nat) (key : Key)
    (low high : Int) : List (Key × Rid) × Nat :=
  if _h : low ≤ high then
    let mid := low + (high - low) / 2
    let e := kvs.getD mid.toNat (0, 0)
    if key > e.1 then leafRemoveLoop kvs s0 key (mid + 1) high
    else if key < e.1 then leafRemoveLoop kvs s0 key low (mid - 1)
    else
      (kvs.take mid.toNat ++
         ((kvs.drop (mid.toNat + 1)).take (s0 - mid.toNat - 1)) ++
         kvs.drop (s0 - 1),
       s0 - 1)
  else (kvs, s0)
termination_by (high + 1 - low).toNat
decreasing_by
  · omega
  · omega

/-- Model of BPlusTreeLeafPage::RemoveAndDeleteRecord: the range guard
and the binary search both use the legacy size_ field `s0` (it is
zeroed with the page frame and never updated by the live leaf code, so
the first guard clause always takes the early return on reachable
pages).  Returns the array and the value of GetSize() returned. -/
def leafRemoveAndDeleteRecord (kvs : List (Key × Rid)) (s0 : Nat)
    (key : Key) : List (Key × Rid) × Nat :=
  if s0 = 0 then (kvs, s0)
  else if key < (kvs.getD 0 (0, 0)).1 then (kvs, s0)
  else if key > (kvs.getD (s0 - 1) (0, 0)).1 then (kvs, s0)
  else leafRemoveLoop kvs s0 key 0 ((s0 : Int) - 1)

mutual

/-- The deletion path of BPlusTree::Remove with the live part of
CoalesceOrRedistribute and AdjustRoot: find the leaf, run
RemoveAndDeleteRecord, and when its return value differs from the
key count taken before, rebalance.  A root leaf emptied clears the
root page id (`some none`); a non-root leaf at or above
GetMinKeySize() = (order+1)/2 - 1 needs nothing.  The sibling
redistribute/merge machinery below that is not modelled (`none`):
it is unreachable because RemoveAndDeleteRecord never changes
key_size. -/
def removeAux (M : Nat) (isRoot : Bool) (t : BPT) (key : Key) :
    Option (Option BPT) :=
  match t with
  | .leaf kvs s0 =>
    let before := kvs.length
    let r := leafRemoveAndDeleteRecord kvs s0 key
    if r.2 ≠ before then
      if isRoot then
        if r.1.length = 0 then some none
        else some (some (.leaf r.1 r.2))
      else if r.1.length ≥ (M + 1) / 2 - 1 then
        some (some (.leaf r.1 r.2))
      else none
    else some (some (.leaf r.1 r.2))
  | .node c0 rest =>
    let i := internalLookupIdx (rest.map Prod.fst) key
    let res := if i = 0 then removeAux M false c0 key
      else removeAuxChild M rest (i - 1) key
    match res with
    | none => none
    | some none => none
    | some (some c2) =>
      let s := setChild c0 rest i c2
      some (some (.node s.1 s.2))

/-- Descend the deletion into the child at index `j` of the slot list. -/
def removeAuxChild (M : Nat) (rest : List (Key × BPT)) (j : Nat)
    (key : Key) : Option (Option BPT) :=
  match rest, j with
  | [], _ => none
  | (_, c) :: _, 0 => removeAux M false c key
  | _ :: rs, j + 1 => removeAuxChild M rs j key

end

/-- BPlusTree::Remove: an empty tree returns immediately; otherwise the
leaf is located and RemoveAndDeleteRecord plus the rebalancing run.
The outer `none` marks the unmodelled (unreachable) deep-rebalance
machinery; the inner option is the root page id. -/
def treeRemove (M : Nat) (root : Option BPT) (key : Key) :
    Option (Option BPT) :=
  match root with
  | none => some none
  | some t => removeAux M true t key

/-- BPlusTree::GetValue on the tree root: FindLeafPage returns null on
an empty tree and GetValue reports false. -/
def treeGetValue (root : Option BPT) (key : Key) : Option Rid :=
  match root with
  | none => none
  | some t => getValue t key

/-- The index operations a client can issue. -/
inductive TreeOp where
  | ins (k : Key) (v : Rid)
  | del (k : Key)

/-- Apply one index operation to the root. -/
def applyTreeOp (M : Nat) (s : Option BPT) : TreeOp → Option (Option BPT)
  | .ins k v => some (treeInsert M s k v).2
  | .del k => treeRemove M s k

/-- Run a sequence of index operations from the empty tree. -/
def applyTreeOps (M : Nat) (ops : List TreeOp) : Option (Option BPT) :=
  ops.foldlM (fun s op => applyTreeOp M s op) none

/-! ## The leaf split block of BPlusTree::InsertIntoLeaf

For the leaf-chain claim the leaf is modelled with its page id and
next-leaf pointer: Split allocates the new page and MoveHalfTo moves
the upper half, then the new leaf takes the old leaf next pointer, the
old leaf points at the new leaf, and InsertIntoParent receives the new
leaf first key. -/

/-- A leaf page with its chain bookkeeping. -/
structure LeafPage where
  pageId : Nat
  kvs : List (Key × Rid)
  nextPageId : Int
deriving Repr

/-- The split block of InsertIntoLeaf: Split + MoveHalfTo (the lower
GetKeySize()/2 pairs stay, the upper GetKeySize() - GetKeySize()/2
move), then the leaf-chain fix-up, returning also the separator key
passed to InsertIntoParent (leaf2->KeyAt(0)). -/
def insertIntoLeafSplit (lf : LeafPage) (newPageId : Nat) :
    LeafPage × LeafPage × Key :=
  let sz := lf.kvs.length / 2
  let leftKvs := lf.kvs.take sz
  let rightKvs := lf.kvs.drop sz
  let leaf2 : LeafPage :=
    { pageId := newPageId, kvs := rightKvs, nextPageId := lf.nextPageId }
  let leaf1 : LeafPage := { lf with kvs := leftKvs, nextPageId := (newPageId : Int) }
  (leaf1, leaf2, (rightKvs.getD 0 (0, 0)).1)

/-! ## Invariants

The properties the claims quantify over: strict key order inside a
node, the occupancy bounds of non-root nodes, and (for the proofs) the
key-interval refinement that makes the routing of Lookup compositional.
With Nat division, the claimed leaf bound ceil((M-1)/2) is M / 2 and
the internal bound ceil(M/2) is (M + 1) / 2. -/

/-- Keys strictly increasing. -/
def StrIncr (ks : List Key) : Prop := List.Pairwise (· < ·) ks

/-- Inclusive lower bound (none = unbounded). -/
def lbOk : Option Key → Key → Prop
  | none, _ => True
  | some a, k => a ≤ k

/-- Exclusive upper bound (none = unbounded). -/
def ubOk : Option Key → Key → Prop
  | none, _ => True
  | some b, k => k < b

/-- The lower routing bound of the child at value slot `i`: the node
lower bound for slot 0, otherwise the separator to its left. -/
def loAt (lo : Option Key) (rest : List (Key × BPT)) (i : Nat) : Option Key :=
  if i = 0 then lo else some (rest.getD (i - 1) dfltPair).1

/-- The upper routing bound of the child at value slot `i`: the node
upper bound for the last slot, otherwise the separator to its right. -/
def hiAt (hi : Option Key) (rest : List (Key × BPT)) (i : Nat) : Option Key :=
  if i = rest.length then hi else some (rest.getD i dfltPair).1

/-- Key occurrence in a subtree. -/
inductive KeyIn : Key → BPT → Prop where
  | leaf {k : Key} {v : Rid} {kvs : List (Key × Rid)} {s0 : Nat} :
      (k, v) ∈ kvs → KeyIn k (.leaf kvs s0)
  | head {k : Key} {c0 : BPT} {rest : List (Key × BPT)} :
      KeyIn k c0 → KeyIn k (.node c0 rest)
  | child {k : Key} {c0 : BPT} {rest : List (Key × BPT)} {p : Key × BPT} :
      p ∈ rest → KeyIn k p.2 → KeyIn k (.node c0 rest)

mutual

/-- The strengthened invariant of non-root subtrees: leaves carry a
zero legacy size_ field, sorted keys within the claimed occupancy
bounds and inside the routing interval [lo, hi); internal nodes carry
between ceil(M/2) and M children whose subtrees partition the interval
at the node keys. -/
inductive SubInv (M : Nat) : Option Key → Option Key → BPT → Prop where
  | leaf {lo hi : Option Key} {kvs : List (Key × Rid)} {s0 : Nat} :
      s0 = 0 → StrIncr (kvs.map Prod.fst) →
      M / 2 ≤ kvs.length → kvs.length ≤ M - 1 →
      (∀ p ∈ kvs, lbOk lo p.1 ∧ ubOk hi p.1) →
      SubInv M lo hi (.leaf kvs s0)
  | node {lo hi : Option Key} {c0 : BPT} {rest : List (Key × BPT)} :
      (M + 1) / 2 ≤ rest.length + 1 → rest.length + 1 ≤ M →
      ChainInv M lo hi c0 rest →
      SubInv M lo hi (.node c0 rest)

/-- The children chain of an internal node: child 0 covers
[lo, k1), the child of slot i covers [ki, k(i+1)), the last covers
[kn, hi). -/
inductive ChainInv (M : Nat) : Option Key → Option Key → BPT → List (Key × BPT) → Prop where
  | nil {lo hi : Option Key} {c : BPT} :
      SubInv M lo hi c → ChainInv M lo hi c []
  | cons {lo hi : Option Key} {k : Key} {c c2 : BPT} {rest : List (Key × BPT)} :
      SubInv M lo (some k) c → ChainInv M (some k) hi c2 rest →
      ChainInv M lo hi c ((k, c2) :: rest)

end

/-- The invariant of the root node: occupancy is relaxed to the root
bounds (a root leaf holds 1 to M-1 keys, a root internal node 2 to M
children). -/
inductive RootInv (M : Nat) : BPT → Prop where
  | leaf {kvs : List (Key × Rid)} {s0 : Nat} :
      s0 = 0 → StrIncr (kvs.map Prod.fst) →
      1 ≤ kvs.length → kvs.length ≤ M - 1 →
      RootInv M (.leaf kvs s0)
  | node {c0 : BPT} {rest : List (Key × BPT)} :
      2 ≤ rest.length + 1 → rest.length + 1 ≤ M →
      ChainInv M none none c0 rest →
      RootInv M (.node c0 rest)

/-- The invariant of the tree state (INVALID root id = empty tree). -/
def StateInv (M : Nat) : Option BPT → Prop
  | none => True
  | some t => RootInv M t

/-- The property claimed of every tree after any complete operation:
every non-root internal node has between ceil(M/2) and M children,
every non-root leaf between ceil((M-1)/2) and M-1 keys, and the keys
within every node are strictly increasing.  The flag records whether
the node is the root. -/
inductive C2Prop (M : Nat) : Bool → BPT → Prop where
  | leaf {isRoot : Bool} {kvs : List (Key × Rid)} {s0 : Nat} :
      StrIncr (kvs.map Prod.fst) →
      (isRoot = false → M / 2 ≤ kvs.length ∧ kvs.length ≤ M - 1) →
      C2Prop M isRoot (.leaf kvs s0)
  | node {isRoot : Bool} {c0 : BPT} {rest : List (Key × BPT)} :
      StrIncr (rest.map Prod.fst) →
      (isRoot = false → (M + 1) / 2 ≤ rest.length + 1 ∧ rest.length + 1 ≤ M) →
      C2Prop M false c0 →
      (∀ p ∈ rest, C2Prop M false p.2) →
      C2Prop M isRoot (.node c0 rest)

mutual

/-- Size measure of a tree, for strong induction. -/
def bptSize : BPT → Nat
  | .leaf _ _ => 1
  | .node c0 rest => 1 + bptSize c0 + bptListSize rest

/-- Size measure of a slot list. -/
def bptListSize : List (Key × BPT) → Nat
  | [] => 0
  | (_, c) :: rs => 1 + bptSize c + bptListSize rs

end

/-- The wait-die bookkeeping invariant of a RID wait list: `oldest` is
a lower bound on the txn id of every queued request. -/
def WLOldestInv (wl : WaitList) : Prop :=
  ∀ r ∈ wl.list, wl.oldest ≤ r.txnId

/-- A concrete younger transaction (larger id) used in the lock-manager
scenarios. -/
def c9t5 : Txn := { id := 5, state := .GROWING, sharedSet := [], exclusiveSet := [] }

/-- A concrete older transaction (smaller id) used in the lock-manager
scenarios. -/
def c9t3 : Txn := { id := 3, state := .GROWING, sharedSet := [], exclusiveSet := [] }

/-- A concrete record id used in the lock-manager scenarios. -/
def c9rid : RID := { pageId := 1, slotNum := 0 }

/-- The wait list after transaction 5 takes the exclusive lock on a
fresh RID: one granted EXCLUSIVE entry, exclusive_cnt 1, oldest 5. -/
def c9wl : WaitList :=
  { list := [{ txnId := 5, mode := .EXCLUSIVE, granted := true }]
    exclusiveCnt := 1
    oldest := 5 }

/-- A leaf page that has just reached order 3 in the split scenario. -/
def c3lf : LeafPage :=
  { pageId := 7, kvs := [(1, 10), (2, 20), (3, 30)], nextPageId := -1 }

/-! # Theorems -/

/-- C8: for every page id whose byte position lies beyond the database
file size, ReadPage fails with the I/O error branch; for an in-range
read returning fewer than PAGE_SIZE bytes the remainder of the caller
buffer is zero-filled (the hypotheses confine the page id to the range
where the C int offset arithmetic does not overflow). -/
theorem readPage_beyond_fails_and_zero_fills
    (file : List Nat) (pageId : Int)
    (h0 : 0 ≤ pageId) (hov : pageId * 4096 < 2 ^ 31) :
    (pageId * (PAGE_SIZE : Int) > (file.length : Int) →
      readPage file pageId = none) ∧
    (pageId * (PAGE_SIZE : Int) ≤ (file.length : Int) →
      ∃ buf, readPage file pageId = some buf ∧
        buf.length = PAGE_SIZE ∧
        (∀ i, i < min PAGE_SIZE (file.length - (pageId * (PAGE_SIZE : Int)).toNat) →
          buf.getD i 0 = file.getD ((pageId * (PAGE_SIZE : Int)).toNat + i) 0) ∧
        (∀ i, min PAGE_SIZE (file.length - (pageId * (PAGE_SIZE : Int)).toNat) ≤ i →
          i < PAGE_SIZE → buf.getD i 0 = 0)) := by
  clear h0 hov
  constructor
  · intro h
    simp only [readPage]
    rw [if_pos h]
  · intro h
    have hnot : ¬ (pageId * (PAGE_SIZE : Int) > (file.length : Int)) := not_lt.mpr h
    set off := (pageId * (PAGE_SIZE : Int)).toNat with hoff
    set rc := min PAGE_SIZE (file.length - off) with hrc
    refine ⟨(file.drop off).take PAGE_SIZE ++ List.replicate (PAGE_SIZE - rc) 0,
      ?_, ?_, ?_, ?_⟩
    · simp only [readPage]
      rw [if_neg hnot]
    · have hlen : ((file.drop off).take PAGE_SIZE).length = rc := by
        simp [List.length_take, List.length_drop, hrc]
      simp only [List.length_append, hlen, List.length_replicate]
      have : rc ≤ PAGE_SIZE := by simp [hrc]
      omega
    · intro i hi
      have hlen : ((file.drop off).take PAGE_SIZE).length = rc := by
        simp [List.length_take, List.length_drop, hrc]
      have hi2 : i < ((file.drop off).take PAGE_SIZE).length := by omega
      rw [List.getD_append _ _ _ _ hi2]
      have h3 : i < PAGE_SIZE := lt_of_lt_of_le hi (by simp [hrc])
      simp only [List.getD_eq_getElem?_getD, List.getElem?_take, h3, if_pos,
        List.getElem?_drop]
    · intro i h1 h2
      have hlen : ((file.drop off).take PAGE_SIZE).length = rc := by
        simp [List.length_take, List.length_drop, hrc]
      rw [List.getD_append_right _ _ _ _ (by omega)]
      rw [hlen]
      rcases lt_or_ge (i - rc) (PAGE_SIZE - rc) with hc | hc
      · simp [List.getD_eq_getElem?_getD, List.getElem?_replicate, hc]
      · simp [List.getD_eq_getElem?_getD, List.getElem?_replicate,
          Nat.not_lt.mpr hc]

/-- C8 witness: a 3-byte file; page 1 starts beyond the file and fails,
page 0 is in range. -/
theorem readPage_beyond_fails_and_zero_fills_witness :
    readPage [1, 2, 3] 1 = none :=
  (readPage_beyond_fails_and_zero_fills [1, 2, 3] 1 (by norm_num)
    (by norm_num)).1 (by norm_num [PAGE_SIZE])

/-- C10: for every RID whose slot size is non-positive (tombstone or
empty slot), TablePage::GetTuple returns false and, with logging
enabled, sets the calling transaction state to ABORTED; the checks run
before the lock-set inspection, so the result is the same for every
transaction, including the one that tombstoned the tuple and still
holds the exclusive lock.  TableHeap::GetTuple then aborts the txn
unconditionally. -/
theorem getTuple_nonpositive_slot_unreadable
    (page : TablePage) (rid : RID) (txn : Txn) (logging lockOk : Bool)
    (hslot : rid.slotNum < page.slots.length)
    (hsize : (page.slots.getD rid.slotNum (0, 0)).2 ≤ 0) :
    (tablePageGetTuple page rid txn logging lockOk).1 = false ∧
    (logging = true →
      (tablePageGetTuple page rid txn logging lockOk).2.1.state = .ABORTED) ∧
    (tableHeapGetTuple page rid txn logging lockOk).1 = false ∧
    (tableHeapGetTuple page rid txn logging lockOk).2.1.state = .ABORTED := by
  have hns : ¬ (rid.slotNum ≥ page.slots.length) := not_le.mpr hslot
  simp only [List.getD_eq_getElem?_getD, Prod.mk_zero_zero] at hsize
  constructor
  · simp [tablePageGetTuple, hns, hsize]
  constructor
  · intro hl
    simp [tablePageGetTuple, hns, hsize, hl]
  constructor
  · simp [tableHeapGetTuple, tablePageGetTuple, hns, hsize]
  · cases logging <;>
      simp [tableHeapGetTuple, tablePageGetTuple, hns, hsize]

/-- C10 witness: a page whose single slot is a tombstone of size -5,
read by the transaction that holds the exclusive lock on the rid. -/
theorem getTuple_nonpositive_slot_unreadable_witness :
    (tablePageGetTuple { slots := [(100, -5)], bytes := [] }
      { pageId := 7, slotNum := 0 }
      { id := 1, state := .GROWING, sharedSet := [],
        exclusiveSet := [{ pageId := 7, slotNum := 0 }] } true true).1 = false ∧
    (tablePageGetTuple { slots := [(100, -5)], bytes := [] }
      { pageId := 7, slotNum := 0 }
      { id := 1, state := .GROWING, sharedSet := [],
        exclusiveSet := [{ pageId := 7, slotNum := 0 }] } true true).2.1.state
      = .ABORTED :=
  ⟨(getTuple_nonpositive_slot_unreadable _ _ _ _ _ (by norm_num) (by norm_num)).1,
   (getTuple_nonpositive_slot_unreadable _ _ _ _ _ (by norm_num)
     (by norm_num)).2.1 rfl⟩

/-- C5: evaluation at the failing input.  A buffer pool caches page 5
in frame 0 with pin count 1; DeletePage(5) nevertheless returns true,
removes the page-table mapping, resets the frame metadata and pushes
the (still pinned) frame to the free list — the claim (and the source
doc comment) say a pinned page makes the call return false with the
state unchanged. -/
theorem deletePage_deletes_pinned_page_eval :
    (deletePage
      { frames := [{ pageId := 5, pinCount := 1, isDirty := true }],
        pageTable := [(5, 0)], freeList := [], replacer := [] } 5) =
    (true,
      { frames := [{ pageId := -1, pinCount := 1, isDirty := false }],
        pageTable := [], freeList := [0], replacer := [] }) := by
  decide

/-- C4 counterexample: the claim states the safe-node check classifies
every node as unsafe; the lab3 isSafe returns true (safe) for a
concrete node and the insert operation. -/
theorem isSafe_not_always_unsafe_counterexample :
    ¬ (isSafe { pid := 1, size := 2, maxSize := 3, minSize := 1 }
        TreeOpKind.INSERT = false) := by
  decide

/-- C4 amended: the safe-node check classifies every node as safe, so
during latch-coupled descent for insert or delete the transaction page
set is emptied at every level before the child is added: after each
step exactly the newest node is held, and the writer latches on all
ancestors have been released. -/
theorem descent_releases_ancestors (root : NodeHdr) (rest : List NodeHdr)
    (op : TreeOpKind) (hop : op ≠ .READONLY) :
    (∀ n o, isSafe n o = true) ∧
    descendHeldTrace root rest op = [root] :: rest.map (fun c => [c]) := by
  refine ⟨fun _ _ => rfl, ?_⟩
  have step1 : ∀ (held : List NodeHdr) (c : NodeHdr),
      descendStep held c op = [c] := by
    intro held c
    simp [descendStep, isSafe, hop]
  have gen : ∀ (cs : List NodeHdr) (held : List NodeHdr),
      cs.scanl (fun held child => descendStep held child op) held =
        held :: cs.map (fun c => [c]) := by
    intro cs
    induction cs with
    | nil => intro held; simp
    | cons c cs ih =>
      intro held
      rw [List.scanl_cons]
      rw [step1 held c, ih]
      simp
  exact gen rest [root]

/-- C4 amended witness: a three-level descent for an insert holds only
the newest latch at each step. -/
theorem descent_releases_ancestors_witness :
    descendHeldTrace { pid := 1, size := 1, maxSize := 3, minSize := 1 }
      [{ pid := 2, size := 2, maxSize := 3, minSize := 1 },
       { pid := 3, size := 2, maxSize := 3, minSize := 1 }]
      TreeOpKind.INSERT =
    [[{ pid := 1, size := 1, maxSize := 3, minSize := 1 }],
     [{ pid := 2, size := 2, maxSize := 3, minSize := 1 }],
     [{ pid := 3, size := 2, maxSize := 3, minSize := 1 }]] :=
  (descent_releases_ancestors _ _ _ (by decide)).2

/-- C6 counterexample: the claim states every false return of the three
lock entry points leaves the txn ABORTED.  Reached through two granted
shared locks (txn 1 then txn 3), LockUpgrade by txn 3 hits the
wait-die loop (txn 1 is ahead and older) and returns false while the
transaction is still GROWING. -/
theorem lockUpgrade_false_without_abort_counterexample :
    (lockUpgrade
      (lockShared
        (lockShared none
          { id := 1, state := .GROWING, sharedSet := [], exclusiveSet := [] }
          { pageId := 0, slotNum := 0 }).2.2
        { id := 3, state := .GROWING, sharedSet := [], exclusiveSet := [] }
        { pageId := 0, slotNum := 0 }).2.2
      { id := 3, state := .GROWING,
        sharedSet := [{ pageId := 0, slotNum := 0 }], exclusiveSet := [] }
      { pageId := 0, slotNum := 0 }).1.returnsFalse = true ∧
    (lockUpgrade
      (lockShared
        (lockShared none
          { id := 1, state := .GROWING, sharedSet := [], exclusiveSet := [] }
          { pageId := 0, slotNum := 0 }).2.2
        { id := 3, state := .GROWING, sharedSet := [], exclusiveSet := [] }
        { pageId := 0, slotNum := 0 }).2.2
      { id := 3, state := .GROWING,
        sharedSet := [{ pageId := 0, slotNum := 0 }], exclusiveSet := [] }
      { pageId := 0, slotNum := 0 }).2.1.state = .GROWING := by
  decide

/-- C6 amended: whenever LockShared or LockExclusive returns false, the
requesting transaction state is ABORTED at the moment of return (the
entry check returns false only for an already-aborted txn, the wait-die
check sets ABORTED before returning); LockUpgrade alone can return
false from its wait-die loop while leaving the state GROWING (see the
counterexample). -/
theorem lockSharedExclusive_false_implies_aborted
    (wl? : Option WaitList) (t : Txn) (rid : RID) :
    ((lockShared wl? t rid).1.returnsFalse = true →
      (lockShared wl? t rid).2.1.state = .ABORTED) ∧
    ((lockExclusive wl? t rid).1.returnsFalse = true →
      (lockExclusive wl? t rid).2.1.state = .ABORTED) := by
  constructor
  · intro h
    by_cases ha : t.state = .ABORTED
    · simpa [lockShared, ha] using ha
    · cases wl? with
      | none =>
        exfalso
        simp only [lockShared, if_neg ha] at h
        simp [LockOutcome.returnsFalse] at h
      | some wl =>
        by_cases hd : wl.exclusiveCnt ≠ 0 ∧ t.id > wl.oldest
        · simp [lockShared, ha, hd]
        · exfalso
          simp only [lockShared, if_neg ha, if_neg hd] at h
          split at h <;> simp [LockOutcome.returnsFalse] at h
  · intro h
    by_cases ha : t.state = .ABORTED
    · simpa [lockExclusive, ha] using ha
    · cases wl? with
      | none =>
        exfalso
        simp only [lockExclusive, if_neg ha] at h
        simp [LockOutcome.returnsFalse] at h
      | some wl =>
        by_cases hd : t.id > wl.oldest
        · simp [lockExclusive, ha, hd]
        · exfalso
          simp only [lockExclusive, if_neg ha, if_neg hd] at h
          split at h <;> simp [LockOutcome.returnsFalse] at h

/-- C6 amended witness: txn 3 requesting exclusive against a list whose
oldest is 1 is killed by wait-die and ends ABORTED. -/
theorem lockSharedExclusive_false_implies_aborted_witness :
    (lockExclusive
      (some { list := [{ txnId := 1, mode := .EXCLUSIVE, granted := true }],
              exclusiveCnt := 1, oldest := 1 })
      { id := 3, state := .GROWING, sharedSet := [], exclusiveSet := [] }
      { pageId := 0, slotNum := 0 }).2.1.state = .ABORTED :=
  (lockSharedExclusive_false_implies_aborted
    (some { list := [{ txnId := 1, mode := .EXCLUSIVE, granted := true }],
            exclusiveCnt := 1, oldest := 1 })
    { id := 3, state := .GROWING, sharedSet := [], exclusiveSet := [] }
    { pageId := 0, slotNum := 0 }).2 (by decide)

/-- The back-to-front write-set walk of Commit equals the reversed
write set filtered to its DELETE entries, each mapped to an
ApplyDelete action. -/
theorem commitWriteSetWalk_eq (l : List WriteRec) :
    commitWriteSetWalk l =
      (l.reverse.filter (fun w => decide (w.wtype = .DELETE))).map
        (fun w => CAction.applyDelete w.rid) := by
  have hstep : ∀ (l2 : List WriteRec) (h : l2 ≠ []),
      commitWriteSetWalk l2 =
        (if (l2.getLast h).wtype = .DELETE
          then [CAction.applyDelete (l2.getLast h).rid] else []) ++
          commitWriteSetWalk l2.dropLast := by
    intro l2 h
    cases l2 with
    | nil => exact absurd rfl h
    | cons a l3 => rw [commitWriteSetWalk]
  induction l using List.reverseRecOn with
  | nil => simp [commitWriteSetWalk]
  | append_singleton ys y ih =>
    rw [hstep (ys ++ [y]) (by simp)]
    by_cases hy : y.wtype = .DELETE <;>
      simp [List.getLast_concat, ih, List.filter_cons, hy]

/-- C7: Commit (with logging enabled) sets the state to COMMITTED,
walks the write set back-to-front applying ApplyDelete to every DELETE
entry, appends a COMMIT record and waits until the persistent LSN
reaches the transaction last LSN (the COMMIT record LSN), and then
releases every RID in the union of the shared and exclusive lock
sets. -/
theorem commit_spec (t : Txn) (ws : List WriteRec) (prevLsn nextLsn : Nat) :
    (commit t ws prevLsn true nextLsn).1.state = .COMMITTED ∧
    (commit t ws prevLsn true nextLsn).2.1 = nextLsn ∧
    (commit t ws prevLsn true nextLsn).2.2 =
      CAction.setState .COMMITTED ::
        ((ws.reverse.filter (fun w => decide (w.wtype = .DELETE))).map
          (fun w => CAction.applyDelete w.rid) ++
         ([CAction.appendLog .COMMIT nextLsn,
           CAction.waitPersistent nextLsn] ++
          (lockSetUnion t).map CAction.unlock)) ∧
    (∀ rid, rid ∈ t.sharedSet ∨ rid ∈ t.exclusiveSet →
      CAction.unlock rid ∈ (commit t ws prevLsn true nextLsn).2.2) := by
  refine ⟨rfl, rfl, ?_, ?_⟩
  · simp [commit, commitWriteSetWalk_eq]
  · intro rid hmem
    have hu : rid ∈ lockSetUnion t := by
      simp only [lockSetUnion, List.mem_dedup, List.mem_append]
      exact hmem
    simp only [commit]
    simp only [List.mem_cons, List.mem_append, List.mem_map]
    exact Or.inr ⟨rid, hu, rfl⟩

/-- C7 witness: a transaction with one INSERT and one DELETE write
record and one lock of each mode. -/
theorem commit_spec_witness :
    (commit
      { id := 4, state := .GROWING,
        sharedSet := [{ pageId := 1, slotNum := 0 }],
        exclusiveSet := [{ pageId := 2, slotNum := 1 }] }
      [{ rid := { pageId := 2, slotNum := 1 }, wtype := .DELETE },
       { rid := { pageId := 3, slotNum := 0 }, wtype := .INSERT }]
      9 true 17).1.state = .COMMITTED ∧
    CAction.unlock { pageId := 1, slotNum := 0 } ∈
      (commit
        { id := 4, state := .GROWING,
          sharedSet := [{ pageId := 1, slotNum := 0 }],
          exclusiveSet := [{ pageId := 2, slotNum := 1 }] }
        [{ rid := { pageId := 2, slotNum := 1 }, wtype := .DELETE },
         { rid := { pageId := 3, slotNum := 0 }, wtype := .INSERT }]
        9 true 17).2.2 :=
  ⟨(commit_spec _ _ 9 17).1,
   (commit_spec _ _ 9 17).2.2.2 _ (Or.inl (by decide))⟩

/-- grantFirst changes only a granted flag: any property of the txn
ids of the entries is preserved. -/
theorem grantFirst_forall {P : Nat → Prop} :
    ∀ (l : List Request) (tid : Nat), (∀ r ∈ l, P r.txnId) →
      ∀ r ∈ grantFirst l tid, P r.txnId := by
  intro l
  induction l with
  | nil => intro tid h r hr; simp [grantFirst] at hr
  | cons q qs ih =>
    intro tid h r hr
    simp only [grantFirst] at hr
    by_cases hq : q.txnId = tid
    · rw [if_pos hq] at hr
      rcases List.mem_cons.mp hr with h1 | h1
      · subst h1; exact h q (List.mem_cons_self q qs)
      · exact h r (List.mem_cons_of_mem q h1)
    · rw [if_neg hq] at hr
      rcases List.mem_cons.mp hr with h1 | h1
      · rw [h1]; exact h q (List.mem_cons_self q qs)
      · exact ih tid (fun s hs => h s (List.mem_cons_of_mem q hs)) r h1

/-- grantFront changes only a granted flag: any property of the txn
ids of the entries is preserved. -/
theorem grantFront_forall {P : Nat → Prop} (l : List Request)
    (h : ∀ r ∈ l, P r.txnId) : ∀ r ∈ grantFront l, P r.txnId := by
  cases l with
  | nil => intro r hr; simp [grantFront] at hr
  | cons a l =>
    intro r hr
    simp only [grantFront] at hr
    rcases List.mem_cons.mp hr with h1 | h1
    · subst h1; exact h a (by simp)
    · exact h r (by simp [h1])

/-- The entries produced by the LockUpgrade relocation carry txn ids
from the original list or from the relocated request. -/
theorem upgradeRelocate_forall {P : Nat → Prop} (l : List Request)
    (srcIdx : Nat) (tgtIdx : Option Nat) (req : Request)
    (h : ∀ r ∈ l, P r.txnId) (hreq : P req.txnId) :
    ∀ r ∈ upgradeRelocate l srcIdx tgtIdx req, P r.txnId := by
  intro r hr
  simp only [upgradeRelocate] at hr
  have hr2 := List.mem_of_mem_eraseIdx hr
  cases tgtIdx with
  | none =>
    rcases List.mem_append.mp hr2 with h1 | h1
    · exact h r h1
    · simp at h1; subst h1; exact hreq
  | some j =>
    rcases List.mem_append.mp hr2 with h1 | h1
    · exact h r (List.mem_of_mem_take h1)
    · rcases List.mem_cons.mp h1 with h2 | h2
      · subst h2; exact hreq
      · exact h r (List.mem_of_mem_drop h2)

/-- In every reachable wait-list state, `oldest` is at most the txn id
of every queued request: `oldest` only ever decreases and every enqueue
records its id into it. -/
theorem wlReach_oldest_le {wl? : Option WaitList} (h : WLReach wl?) :
    ∀ wl, wl? = some wl → WLOldestInv wl := by
  induction h with
  | init => intro wl h; cases h
  | step op hprev ih =>
    rename_i wlp
    intro wl h
    cases op with
    | shared t rid =>
      simp only [applyLockOp] at h
      by_cases ha : t.state = .ABORTED
      · simp only [lockShared, if_pos ha] at h
        exact ih wl h
      · cases wlp with
        | none =>
          simp only [lockShared, if_neg ha] at h
          injection h with h
          subst h
          intro r hr
          refine grantFirst_forall _ _ ?_ r hr
          intro s hs
          simp at hs
          subst hs
          exact le_refl _
        | some wl0 =>
          have hinv := ih wl0 rfl
          simp only [lockShared, if_neg ha] at h
          by_cases hd : wl0.exclusiveCnt ≠ 0 ∧ t.id > wl0.oldest
          · rw [if_pos hd] at h
            injection h with h
            subst h
            exact hinv
          · rw [if_neg hd] at h
            split at h <;> injection h with h <;> subst h
            · intro r hr
              refine grantFirst_forall _ _ ?_ r hr
              intro s hs
              rcases List.mem_append.mp hs with h1 | h1
              · have := hinv s h1
                dsimp only
                split <;> omega
              · simp at h1
                subst h1
                dsimp only
                split <;> omega
            · intro r hr
              rcases List.mem_append.mp hr with h1 | h1
              · have := hinv r h1
                dsimp only
                split <;> omega
              · simp at h1
                subst h1
                dsimp only
                split <;> omega
    | exclusive t rid =>
      simp only [applyLockOp] at h
      by_cases ha : t.state = .ABORTED
      · simp only [lockExclusive, if_pos ha] at h
        exact ih wl h
      · cases wlp with
        | none =>
          simp only [lockExclusive, if_neg ha] at h
          injection h with h
          subst h
          intro r hr
          dsimp only at hr ⊢
          refine grantFront_forall _ ?_ r hr
          intro s hs
          simp at hs
          subst hs
          exact le_refl _
        | some wl0 =>
          have hinv := ih wl0 rfl
          have hle : t.id ≤ wl0.oldest ∨ t.id > wl0.oldest := le_or_lt t.id wl0.oldest
          simp only [lockExclusive, if_neg ha] at h
          by_cases hd : t.id > wl0.oldest
          · rw [if_pos hd] at h
            injection h with h
            subst h
            exact hinv
          · have hd2 : t.id ≤ wl0.oldest := not_lt.mp hd
            rw [if_neg hd] at h
            split at h <;> injection h with h <;> subst h
            · intro r hr
              dsimp only at hr ⊢
              refine grantFront_forall _ ?_ r hr
              intro s hs
              rcases List.mem_append.mp hs with h1 | h1
              · exact le_trans hd2 (hinv s h1)
              · simp at h1
                subst h1
                exact le_refl _
            · intro r hr
              dsimp only at hr ⊢
              rcases List.mem_append.mp hr with h1 | h1
              · exact le_trans hd2 (hinv r h1)
              · simp at h1
                subst h1
                exact le_refl _
    | upgrade t rid =>
      simp only [applyLockOp] at h
      by_cases ha : t.state = .ABORTED
      · simp only [lockUpgrade, if_pos ha] at h
        exact ih wl h
      · simp only [lockUpgrade, if_neg ha] at h
        cases wlp with
        | none =>
          simp only [Option.getD_none] at h
          simp only [findSrcIdx, List.findIdx?_nil] at h
          injection h with h
          subst h
          intro r hr
          simp at hr
        | some wl0 =>
          have hinv := ih wl0 rfl
          simp only [Option.getD_some] at h
          cases hsrc : findSrcIdx wl0.list t.id with
          | none =>
            rw [hsrc] at h
            injection h with h
            subst h
            exact hinv
          | some srcIdx =>
            rw [hsrc] at h
            dsimp only at h
            have hsrcmem : wl0.list.getD srcIdx
                { txnId := t.id, mode := .SHARED, granted := false } ∈ wl0.list := by
              have hlt : srcIdx < wl0.list.length :=
                (List.findIdx?_eq_some_iff_findIdx_eq.mp hsrc).1
              rw [List.getD_eq_getElem?_getD, List.getElem?_eq_getElem hlt]
              exact List.getElem_mem hlt
            split at h
            · injection h with h
              subst h
              exact hinv
            · have hrel : ∀ r ∈ upgradeRelocate wl0.list srcIdx
                  (findTgtIdx wl0.list srcIdx)
                  { wl0.list.getD srcIdx
                      { txnId := t.id, mode := .SHARED, granted := false } with
                    granted := false, mode := .EXCLUSIVE },
                  wl0.oldest ≤ r.txnId := by
                refine upgradeRelocate_forall _ _ _ _ hinv ?_
                exact hinv (wl0.list.getD srcIdx
                  { txnId := t.id, mode := .SHARED, granted := false }) hsrcmem
              split at h <;> injection h with h <;> subst h
              · intro r hr
                exact grantFront_forall _ hrel r hr
              · exact hrel
    | unlock tid =>
      simp only [applyLockOp] at h
      cases wlp with
      | none => cases h
      | some wl0 =>
        have hinv := ih wl0 rfl
        injection h with h
        subst h
        simp only [unlockWL]
        cases hf : findSrcIdx wl0.list tid with
        | none => simpa using hinv
        | some i =>
          intro r hr
          simp only at hr
          have := List.mem_of_mem_eraseIdx hr
          have h2 := hinv r this
          exact h2

/-- C9 counterexample: an older transaction does wait for a lock held
by a younger one.  Transaction 5 (younger) takes the exclusive lock on
a fresh RID and is granted; transaction 3 (older) then requests a
shared lock on the same RID and is admitted to waiting — not aborted —
while the younger transaction's granted exclusive entry sits in the
wait list.  This refutes the claim that a transaction never waits for
a lock held or requested by a younger transaction: the wait-die check
kills the younger requester, so it is precisely the older requesters
that wait, and they wait on younger holders. -/
theorem older_waits_on_younger_counterexample :
    c9t3.id < c9t5.id ∧
    (lockExclusive none c9t5 c9rid).1 = .grantedNow ∧
    (lockExclusive none c9t5 c9rid).2.2 = some c9wl ∧
    (lockShared (some c9wl) c9t3 c9rid).1 = .waiting ∧
    ((lockShared (some c9wl) c9t3 c9rid).2.1).state ≠ .ABORTED ∧
    (∃ r ∈ c9wl.list, r.txnId = c9t5.id ∧ r.granted = true) := by
  refine ⟨by decide, by decide, by decide, by decide, ?_, by decide⟩
  decide

/-- C9 amended: the wait-die direction is the reverse of the claim.  On
every reachable wait list a requester admitted to waiting by
LockExclusive — and by LockShared whenever an exclusive request is
queued — has a txn id at most that of every queued request: a waiter is
at least as old as everything it waits behind, so wait-for edges always
point from older to younger transactions and no cyclic wait can form;
a requester younger than the oldest queued transaction is killed
instead of waiting. -/
theorem lock_wait_only_for_younger (wl0 : WaitList) (hre : WLReach (some wl0))
    (t : Txn) (rid : RID) :
    ((lockExclusive (some wl0) t rid).1 = .waiting →
      ∀ r ∈ wl0.list, t.id ≤ r.txnId) ∧
    ((lockShared (some wl0) t rid).1 = .waiting → wl0.exclusiveCnt ≠ 0 →
      ∀ r ∈ wl0.list, t.id ≤ r.txnId) := by
  have hinv := wlReach_oldest_le hre wl0 rfl
  constructor
  · intro hw
    by_cases ha : t.state = .ABORTED
    · simp [lockExclusive, if_pos ha] at hw
    · by_cases hd : t.id > wl0.oldest
      · simp [lockExclusive, if_neg ha, if_pos hd] at hw
      · intro r hr
        exact le_trans (not_lt.mp hd) (hinv r hr)
  · intro hw hcnt
    by_cases ha : t.state = .ABORTED
    · simp [lockShared, if_pos ha] at hw
    · by_cases hd : t.id > wl0.oldest
      · simp [lockShared, if_neg ha, if_pos (And.intro hcnt hd)] at hw
      · intro r hr
        exact le_trans (not_lt.mp hd) (hinv r hr)

theorem lock_wait_only_for_younger_witness :
    (lockShared (some c9wl) c9t3 c9rid).1 = .waiting ∧
    ∀ r ∈ c9wl.list, c9t3.id ≤ r.txnId := by
  refine ⟨by decide, ?_⟩
  have hre : WLReach (some c9wl) := by
    have h1 := WLReach.step (.exclusive c9t5 c9rid) WLReach.init
    have he : applyLockOp none (.exclusive c9t5 c9rid) = some c9wl := by decide
    rw [he] at h1
    exact h1
  exact (lock_wait_only_for_younger c9wl hre c9t3 c9rid).2 (by decide) (by decide)

/-- C3: when an insertion brings a leaf's key count up to the
configured order M, InsertIntoLeaf splits the leaf: MoveHalfTo keeps
the lower M / 2 pairs and moves the upper M - M / 2 = ceil(M/2) pairs
to the newly allocated leaf, the new leaf takes the old leaf's
next-leaf pointer, the old leaf's next pointer is set to the new page,
and the separator handed to InsertIntoParent is the new leaf's first
key. -/
theorem leaf_split_on_reaching_order (M : Nat) (kvs : List (Key × Rid))
    (s0 : Nat) (key : Key) (v : Rid) (lf : LeafPage) (newPid : Nat)
    (hnew : leafLookup kvs key = none)
    (hfull : (leafInsert kvs key v).length = M)
    (hlf : lf.kvs = leafInsert kvs key v) :
    insertAux M (.leaf kvs s0) key v =
      .split (.leaf (lf.kvs.take (M / 2)) s0)
        ((lf.kvs.getD (M / 2) (0, 0)).1)
        (.leaf (lf.kvs.drop (M / 2)) 0) ∧
    (insertIntoLeafSplit lf newPid).1.kvs = lf.kvs.take (M / 2) ∧
    (insertIntoLeafSplit lf newPid).2.1.kvs = lf.kvs.drop (M / 2) ∧
    (insertIntoLeafSplit lf newPid).2.1.kvs.length = M - M / 2 ∧
    M - M / 2 = (M + 1) / 2 ∧
    (insertIntoLeafSplit lf newPid).1.kvs ++
      (insertIntoLeafSplit lf newPid).2.1.kvs = lf.kvs ∧
    (insertIntoLeafSplit lf newPid).2.1.nextPageId = lf.nextPageId ∧
    (insertIntoLeafSplit lf newPid).1.nextPageId = (newPid : Int) ∧
    (insertIntoLeafSplit lf newPid).1.pageId = lf.pageId ∧
    (insertIntoLeafSplit lf newPid).2.1.pageId = newPid ∧
    (insertIntoLeafSplit lf newPid).2.2 =
      ((insertIntoLeafSplit lf newPid).2.1.kvs.getD 0 (0, 0)).1 ∧
    (insertIntoLeafSplit lf newPid).2.2 = (lf.kvs.getD (M / 2) (0, 0)).1 := by
  obtain ⟨pid, lkvs, nxt⟩ := lf
  dsimp only at hlf
  subst hlf
  refine ⟨?_, ?_, ?_, ?_, by omega, ?_, ?_, ?_, ?_, ?_, ?_, ?_⟩
  · unfold insertAux
    rw [hnew]
    simp only [hfull]
    rw [if_pos (le_refl M)]
  · simp [insertIntoLeafSplit, hfull]
  · simp [insertIntoLeafSplit, hfull]
  · simp [insertIntoLeafSplit, hfull]
  · simp [insertIntoLeafSplit, hfull]
  · simp [insertIntoLeafSplit]
  · simp [insertIntoLeafSplit]
  · simp [insertIntoLeafSplit]
  · simp [insertIntoLeafSplit]
  · simp [insertIntoLeafSplit]
  · simp [insertIntoLeafSplit, hfull, List.getD_eq_getElem?_getD,
      List.getElem?_drop]

theorem leaf_split_on_reaching_order_witness :
    insertAux 3 (.leaf [(1, 10), (2, 20)] 0) 3 30 =
      .split (.leaf (c3lf.kvs.take 1) 0) ((c3lf.kvs.getD 1 (0, 0)).1)
        (.leaf (c3lf.kvs.drop 1) 0) ∧
    (insertIntoLeafSplit c3lf 9).2.1.kvs.length = 2 ∧
    (insertIntoLeafSplit c3lf 9).2.1.nextPageId = c3lf.nextPageId ∧
    (insertIntoLeafSplit c3lf 9).1.nextPageId = (9 : Int) ∧
    (insertIntoLeafSplit c3lf 9).2.2 = (c3lf.kvs.getD 1 (0, 0)).1 := by
  have h := leaf_split_on_reaching_order 3 [(1, 10), (2, 20)] 0 3 30 c3lf 9
    (by simp [leafLookup]) (by simp [leafInsert]) (by simp [leafInsert, c3lf])
  exact ⟨h.1, h.2.2.2.1, h.2.2.2.2.2.2.1, h.2.2.2.2.2.2.2.1,
    h.2.2.2.2.2.2.2.2.2.2.2⟩

/-- C1 counterexample: the round-trip fails on deletion.  On an order-3
tree, insert(1, 10) succeeds and get_value(1) returns 10, but after
remove(1) runs to completion the tree is unchanged and get_value(1)
still returns 10 instead of reporting the key not found:
RemoveAndDeleteRecord reads the legacy size_ field, which is zeroed
with the page frame and never updated by the live leaf code, so its
range guard always takes the early return and no entry is ever
removed. -/
theorem remove_roundtrip_counterexample :
    treeInsert 3 none 1 10 = (true, some (.leaf [(1, 10)] 0)) ∧
    treeRemove 3 (some (.leaf [(1, 10)] 0)) 1 =
      some (some (.leaf [(1, 10)] 0)) ∧
    treeGetValue (some (.leaf [(1, 10)] 0)) 1 = some 10 := by
  refine ⟨rfl, ?_, ?_⟩
  · simp [treeRemove, removeAux, leafRemoveAndDeleteRecord]
  · simp [treeGetValue, getValue, leafLookup, leafLookupLoop]

/-! ## List and order helpers for the B+tree development -/

theorem getD_eq_getElem {α : Type _} (l : List α) (j : Nat) (d : α)
    (hj : j < l.length) : l.getD j d = l[j] := by
  rw [List.getD_eq_getElem?_getD, List.getElem?_eq_getElem hj]
  rfl

theorem list_set_getD {α : Type _} (l : List α) (j : Nat) (d : α)
    (hj : j < l.length) : l.set j (l.getD j d) = l := by
  induction l generalizing j with
  | nil => simp at hj
  | cons a l ih =>
    cases j with
    | zero => simp [List.getD]
    | succ j =>
      simp only [List.length_cons, Nat.succ_lt_succ_iff] at hj
      simp only [List.set, List.getD_cons_succ]
      rw [ih j hj]

theorem kvs_sorted_lt (kvs : List (Key × Rid))
    (hs : StrIncr (kvs.map Prod.fst)) {i j : Nat} (hij : i < j)
    (hj : j < kvs.length) :
    (kvs.getD i (0, 0)).1 < (kvs.getD j (0, 0)).1 := by
  have hi : i < kvs.length := lt_trans hij hj
  rw [getD_eq_getElem _ _ _ hi, getD_eq_getElem _ _ _ hj]
  have := List.pairwise_iff_getElem.mp hs i j
    (by simpa using hi) (by simpa using hj) hij
  simpa using this

theorem kvs_sorted_le (kvs : List (Key × Rid))
    (hs : StrIncr (kvs.map Prod.fst)) {i j : Nat} (hij : i ≤ j)
    (hj : j < kvs.length) :
    (kvs.getD i (0, 0)).1 ≤ (kvs.getD j (0, 0)).1 := by
  rcases lt_or_eq_of_le hij with h | h
  · exact le_of_lt (kvs_sorted_lt kvs hs h hj)
  · rw [h]

theorem ks_sorted_lt (ks : List Key) (hs : List.Pairwise (· < ·) ks)
    {i j : Nat} (hij : i < j) (hj : j < ks.length) :
    ks.getD i 0 < ks.getD j 0 := by
  have hi : i < ks.length := lt_trans hij hj
  rw [getD_eq_getElem _ _ _ hi, getD_eq_getElem _ _ _ hj]
  exact List.pairwise_iff_getElem.mp hs i j hi hj hij

theorem ks_sorted_le (ks : List Key) (hs : List.Pairwise (· < ·) ks)
    {i j : Nat} (hij : i ≤ j) (hj : j < ks.length) :
    ks.getD i 0 ≤ ks.getD j 0 := by
  rcases lt_or_eq_of_le hij with h | h
  · exact le_of_lt (ks_sorted_lt ks hs h hj)
  · rw [h]

/-! ## One-step equations of the binary-search loops -/

theorem leafLookupLoop_step (kvs : List (Key × Rid)) (key : Key)
    (low high : Int) (h : low ≤ high) :
    leafLookupLoop kvs key low high =
      (if key > (kvs.getD (low + (high - low) / 2).toNat (0, 0)).1 then
        leafLookupLoop kvs key (low + (high - low) / 2 + 1) high
      else if key < (kvs.getD (low + (high - low) / 2).toNat (0, 0)).1 then
        leafLookupLoop kvs key low (low + (high - low) / 2 - 1)
      else some (kvs.getD (low + (high - low) / 2).toNat (0, 0)).2) := by
  rw [leafLookupLoop]
  rw [dif_pos h]

theorem leafLookupLoop_end (kvs : List (Key × Rid)) (key : Key)
    (low high : Int) (h : ¬ low ≤ high) :
    leafLookupLoop kvs key low high = none := by
  rw [leafLookupLoop]
  rw [dif_neg h]

theorem leafInsertLoop_step (kvs : List (Key × Rid)) (key : Key)
    (low high : Int) (h : low < high ∧ low + 1 ≠ high) :
    leafInsertLoop kvs key low high =
      (if key < (kvs.getD (low + (high - low) / 2).toNat (0, 0)).1 then
        leafInsertLoop kvs key low (low + (high - low) / 2)
      else if key > (kvs.getD (low + (high - low) / 2).toNat (0, 0)).1 then
        leafInsertLoop kvs key (low + (high - low) / 2) high
      else high) := by
  rw [leafInsertLoop]
  rw [dif_pos h]

theorem leafInsertLoop_end (kvs : List (Key × Rid)) (key : Key)
    (low high : Int) (h : ¬ (low < high ∧ low + 1 ≠ high)) :
    leafInsertLoop kvs key low high = high := by
  rw [leafInsertLoop]
  rw [dif_neg h]

theorem internalLookupLoop_step (ks : List Key) (key : Key)
    (low high : Int) (h : low < high ∧ low + 1 ≠ high) :
    internalLookupLoop ks key low high =
      (if key < ks.getD ((low + (high - low) / 2).toNat - 1) 0 then
        internalLookupLoop ks key low (low + (high - low) / 2)
      else if key > ks.getD ((low + (high - low) / 2).toNat - 1) 0 then
        internalLookupLoop ks key (low + (high - low) / 2) high
      else low + (high - low) / 2) := by
  rw [internalLookupLoop]
  rw [dif_pos h]

theorem internalLookupLoop_end (ks : List Key) (key : Key)
    (low high : Int) (h : ¬ (low < high ∧ low + 1 ≠ high)) :
    internalLookupLoop ks key low high = low := by
  rw [internalLookupLoop]
  rw [dif_neg h]

/-! ## Specifications of the binary searches on sorted arrays -/

theorem leafLookupLoop_complete (kvs : List (Key × Rid)) (key : Key)
    (hs : StrIncr (kvs.map Prod.fst)) :
    ∀ (n : Nat) (low high : Int), (high + 1 - low).toNat ≤ n →
      ∀ i : Nat, i < kvs.length → (kvs.getD i (0, 0)).1 = key →
        low ≤ (i : Int) → (i : Int) ≤ high →
        high ≤ (kvs.length : Int) - 1 → 0 ≤ low →
        (leafLookupLoop kvs key low high).isSome := by
  intro n
  induction n with
  | zero => intro low high hn i hi hk hli hih hhl hl0; omega
  | succ n ih =>
    intro low high hn i hi hk hli hih hhl hl0
    have hle : low ≤ high := le_trans hli hih
    rw [leafLookupLoop_step kvs key low high hle]
    set m := low + (high - low) / 2 with hm
    have hm1 : low ≤ m := by omega
    have hm2 : m ≤ high := by omega
    have hmlt : m.toNat < kvs.length := by omega
    by_cases hgt : key > (kvs.getD m.toNat (0, 0)).1
    · rw [if_pos hgt]
      have himt : m.toNat < i := by
        by_contra hc
        push_neg at hc
        have := kvs_sorted_le kvs hs hc hmlt
        exact absurd (hk ▸ this) (not_le.mpr hgt)
      exact ih (m + 1) high (by omega) i hi hk (by omega) hih hhl (by omega)
    · rw [if_neg hgt]
      by_cases hlt : key < (kvs.getD m.toNat (0, 0)).1
      · rw [if_pos hlt]
        have himt : i < m.toNat := by
          by_contra hc
          push_neg at hc
          have := kvs_sorted_le kvs hs hc hi
          exact absurd (hk ▸ this) (not_le.mpr hlt)
        exact ih low (m - 1) (by omega) i hi hk hli (by omega) (by omega) hl0
      · rw [if_neg hlt]
        simp

theorem leafLookup_none_not_mem (kvs : List (Key × Rid)) (key : Key)
    (hs : StrIncr (kvs.map Prod.fst)) (h : leafLookup kvs key = none) :
    ∀ i : Nat, i < kvs.length → (kvs.getD i (0, 0)).1 ≠ key := by
  intro i hi hk
  unfold leafLookup at h
  by_cases h0 : kvs.length = 0
  · omega
  rw [if_neg h0] at h
  by_cases h1 : key < (kvs.getD 0 (0, 0)).1
  · have := kvs_sorted_le kvs hs (Nat.zero_le i) hi
    exact absurd (hk ▸ this) (not_le.mpr h1)
  rw [if_neg h1] at h
  by_cases h2 : key > (kvs.getD (kvs.length - 1) (0, 0)).1
  · have := kvs_sorted_le kvs hs (by omega : i ≤ kvs.length - 1) (by omega)
    exact absurd (hk ▸ this) (not_le.mpr h2)
  rw [if_neg h2] at h
  have := leafLookupLoop_complete kvs key hs
    ((kvs.length : Int) - 1 + 1 - 0).toNat 0 ((kvs.length : Int) - 1)
    (le_refl _) i hi hk (by omega) (by omega) (by omega) (by omega)
  rw [h] at this
  simp at this

theorem leafInsertLoop_spec (kvs : List (Key × Rid)) (key : Key)
    (hs : StrIncr (kvs.map Prod.fst))
    (hnm : ∀ i : Nat, i < kvs.length → (kvs.getD i (0, 0)).1 ≠ key) :
    ∀ (n : Nat) (low high : Int), (high - low).toNat ≤ n →
      0 ≤ low → low < high → high ≤ (kvs.length : Int) - 1 →
      (kvs.getD low.toNat (0, 0)).1 < key →
      key < (kvs.getD high.toNat (0, 0)).1 →
      low < leafInsertLoop kvs key low high ∧
      leafInsertLoop kvs key low high ≤ high ∧
      (kvs.getD ((leafInsertLoop kvs key low high).toNat - 1) (0, 0)).1 < key ∧
      key < (kvs.getD (leafInsertLoop kvs key low high).toNat (0, 0)).1 := by
  intro n
  induction n with
  | zero => intro low high hn h0 hlh hh hlo hhi; omega
  | succ n ih =>
    intro low high hn h0 hlh hh hlo hhi
    by_cases hc : low < high ∧ low + 1 ≠ high
    · rw [leafInsertLoop_step kvs key low high hc]
      set m := low + (high - low) / 2 with hm
      have hm1 : low < m := by omega
      have hm2 : m < high := by omega
      by_cases hlt : key < (kvs.getD m.toNat (0, 0)).1
      · rw [if_pos hlt]
        have h := ih low m (by omega) h0 hm1 (by omega) hlo hlt
        exact ⟨h.1, le_trans h.2.1 (le_of_lt hm2), h.2.2.1, h.2.2.2⟩
      · rw [if_neg hlt]
        by_cases hgt : key > (kvs.getD m.toNat (0, 0)).1
        · rw [if_pos hgt]
          have h := ih m high (by omega) (by omega) hm2 hh hgt hhi
          exact ⟨lt_trans hm1 h.1, h.2.1, h.2.2.1, h.2.2.2⟩
        · exfalso
          exact hnm m.toNat (by omega)
            (le_antisymm (not_lt.mp hlt) (not_lt.mp hgt))
    · rw [leafInsertLoop_end kvs key low high hc]
      have hph : low + 1 = high := by omega
      refine ⟨by omega, by omega, ?_, hhi⟩
      have he : high.toNat - 1 = low.toNat := by omega
      rw [he]
      exact hlo

theorem internalLookupLoop_bounds (ks : List Key) (key : Key) :
    ∀ (n : Nat) (low high : Int), (high - low).toNat ≤ n → low ≤ high →
      low ≤ internalLookupLoop ks key low high ∧
      internalLookupLoop ks key low high ≤ high := by
  intro n
  induction n with
  | zero =>
    intro low high hn hlh
    have hc : ¬ (low < high ∧ low + 1 ≠ high) := by omega
    rw [internalLookupLoop_end ks key low high hc]
    omega
  | succ n ih =>
    intro low high hn hlh
    by_cases hc : low < high ∧ low + 1 ≠ high
    · rw [internalLookupLoop_step ks key low high hc]
      set m := low + (high - low) / 2 with hm
      have hm1 : low < m := by omega
      have hm2 : m < high := by omega
      by_cases hlt : key < ks.getD (m.toNat - 1) 0
      · rw [if_pos hlt]
        have := ih low m (by omega) (by omega)
        omega
      · rw [if_neg hlt]
        by_cases hgt : key > ks.getD (m.toNat - 1) 0
        · rw [if_pos hgt]
          have := ih m high (by omega) (by omega)
          omega
        · rw [if_neg hgt]
          omega
    · rw [internalLookupLoop_end ks key low high hc]
      omega

theorem internalLookupLoop_spec (ks : List Key) (key : Key)
    (hs : List.Pairwise (· < ·) ks) :
    ∀ (n : Nat) (low high : Int), (high - low).toNat ≤ n →
      1 ≤ low → low < high → high ≤ (ks.length : Int) →
      ks.getD (low.toNat - 1) 0 ≤ key → key < ks.getD (high.toNat - 1) 0 →
      1 ≤ internalLookupLoop ks key low high ∧
      internalLookupLoop ks key low high < high ∧
      ks.getD ((internalLookupLoop ks key low high).toNat - 1) 0 ≤ key ∧
      key < ks.getD (internalLookupLoop ks key low high).toNat 0 := by
  intro n
  induction n with
  | zero => intro low high hn h1 hlh hh hlo hhi; omega
  | succ n ih =>
    intro low high hn h1 hlh hh hlo hhi
    by_cases hc : low < high ∧ low + 1 ≠ high
    · rw [internalLookupLoop_step ks key low high hc]
      set m := low + (high - low) / 2 with hm
      have hm1 : low < m := by omega
      have hm2 : m < high := by omega
      by_cases hlt : key < ks.getD (m.toNat - 1) 0
      · rw [if_pos hlt]
        have h := ih low m (by omega) h1 hm1 (by omega) hlo hlt
        exact ⟨h.1, lt_trans h.2.1 hm2, h.2.2.1, h.2.2.2⟩
      · rw [if_neg hlt]
        by_cases hgt : key > ks.getD (m.toNat - 1) 0
        · rw [if_pos hgt]
          exact ih m high (by omega) (by omega) hm2 hh (le_of_lt hgt) hhi
        · rw [if_neg hgt]
          have hkm : ks.getD (m.toNat - 1) 0 = key :=
            le_antisymm (not_lt.mp hlt) (not_lt.mp hgt)
          have hmlt : m.toNat < ks.length := by omega
          have := ks_sorted_lt ks hs (by omega : m.toNat - 1 < m.toNat) hmlt
          exact ⟨by omega, by omega, le_of_eq hkm, hkm ▸ this⟩
    · rw [internalLookupLoop_end ks key low high hc]
      have hph : low + 1 = high := by omega
      have he : high.toNat - 1 = low.toNat := by omega
      rw [he] at hhi
      exact ⟨h1, by omega, hlo, hhi⟩

theorem internalLookupIdx_le (ks : List Key) (key : Key) :
    internalLookupIdx ks key ≤ ks.length := by
  unfold internalLookupIdx
  by_cases h1 : ks.length + 1 ≤ 1
  · simp only [if_pos h1]
    omega
  simp only [if_neg h1]
  by_cases h2 : key < ks.getD 0 0
  · simp only [if_pos h2]
    omega
  simp only [if_neg h2]
  by_cases h3 : key ≥ ks.getD (ks.length + 1 - 2) 0
  · simp only [if_pos h3]
    omega
  simp only [if_neg h3]
  have := internalLookupLoop_bounds ks key
    (((ks.length + 1 : Nat) : Int) - 1 - 1).toNat 1
    (((ks.length + 1 : Nat) : Int) - 1) (le_refl _) (by push_cast; omega)
  omega

theorem internalLookupIdx_spec (ks : List Key) (key : Key)
    (hs : List.Pairwise (· < ·) ks) :
    internalLookupIdx ks key ≤ ks.length ∧
    (1 ≤ internalLookupIdx ks key →
      ks.getD (internalLookupIdx ks key - 1) 0 ≤ key) ∧
    (internalLookupIdx ks key < ks.length →
      key < ks.getD (internalLookupIdx ks key) 0) := by
  refine ⟨internalLookupIdx_le ks key, ?_⟩
  unfold internalLookupIdx
  by_cases h1 : ks.length + 1 ≤ 1
  · simp only [if_pos h1]
    constructor
    · intro hc; omega
    · intro hc; omega
  simp only [if_neg h1]
  by_cases h2 : key < ks.getD 0 0
  · simp only [if_pos h2]
    constructor
    · intro hc; omega
    · intro hc
      exact h2
  simp only [if_neg h2]
  by_cases h3 : key ≥ ks.getD (ks.length + 1 - 2) 0
  · simp only [if_pos h3]
    constructor
    · intro hc
      have he : ks.length + 1 - 1 - 1 = ks.length + 1 - 2 := by omega
      rw [he]
      exact h3
    · intro hc; omega
  simp only [if_neg h3]
  have hlen : 2 ≤ ks.length := by
    by_contra hc
    push_neg at hc
    interval_cases h : ks.length
    · omega
    · push_neg at h3
      norm_num [List.getD_eq_getElem?_getD] at h2 h3
      exact absurd h3 (not_lt.mpr h2)
  have hsp := internalLookupLoop_spec ks key hs
    (((ks.length + 1 : Nat) : Int) - 1 - 1).toNat 1
    (((ks.length + 1 : Nat) : Int) - 1) (le_refl _) (le_refl _)
    (by push_cast; omega) (by push_cast; omega)
    (by simpa using not_lt.mp h2)
    (by
      push_neg at h3
      have he : ((((ks.length + 1 : Nat) : Int) - 1).toNat - 1) =
          ks.length + 1 - 2 := by push_cast; omega
      rw [he]
      exact h3)
  constructor
  · intro hc
    exact hsp.2.2.1
  · intro hc
    have := hsp.2.2.2
    have hb : (internalLookupLoop ks key 1
        (((ks.length + 1 : Nat) : Int) - 1)).toNat < ks.length := by
      push_cast at hsp
      omega
    exact this

/-! ## The shape of BPlusTreeLeafPage::Insert on a sorted page -/

theorem length_take_insert {α : Type _} (l : List α) (x : α) (n : Nat) :
    (l.take n ++ x :: l.drop n).length = l.length + 1 := by
  simp [List.length_take, List.length_drop]
  omega

theorem leafInsert_length (kvs : List (Key × Rid)) (key : Key) (v : Rid) :
    (leafInsert kvs key v).length = kvs.length + 1 := by
  unfold leafInsert
  by_cases h0 : kvs.length = 0
  · rw [if_pos h0]
    simp [h0]
  rw [if_neg h0]
  by_cases h1 : key > (kvs.getD (kvs.length - 1) (0, 0)).1
  · rw [if_pos h1]
    simp
  rw [if_neg h1]
  by_cases h2 : key < (kvs.getD 0 (0, 0)).1
  · rw [if_pos h2]
    simp
  rw [if_neg h2]
  exact length_take_insert kvs (key, v) _

theorem mem_take_idx {α : Type _} (d : α) (l : List α) (n : Nat) (p : α)
    (hp : p ∈ l.take n) : ∃ j, j < n ∧ j < l.length ∧ l.getD j d = p := by
  rcases List.mem_iff_getElem.mp hp with ⟨j, hj, he⟩
  have hj2 : j < n ∧ j < l.length := by
    have := List.length_take n l
    omega
  refine ⟨j, hj2.1, hj2.2, ?_⟩
  rw [getD_eq_getElem _ _ _ hj2.2, ← he]
  exact (List.getElem_take _).symm

theorem mem_drop_idx {α : Type _} (d : α) (l : List α) (n : Nat) (p : α)
    (hp : p ∈ l.drop n) : ∃ j, n ≤ j ∧ j < l.length ∧ l.getD j d = p := by
  rcases List.mem_iff_getElem.mp hp with ⟨j, hj, he⟩
  have hj2 : n + j < l.length := by
    have := List.length_drop n l
    omega
  refine ⟨n + j, by omega, hj2, ?_⟩
  rw [getD_eq_getElem _ _ _ hj2, ← he]
  exact (List.getElem_drop _).symm

theorem leafInsert_form (kvs : List (Key × Rid)) (key : Key) (v : Rid)
    (hs : StrIncr (kvs.map Prod.fst))
    (hnm : ∀ i : Nat, i < kvs.length → (kvs.getD i (0, 0)).1 ≠ key) :
    ∃ n, n ≤ kvs.length ∧
      leafInsert kvs key v = kvs.take n ++ (key, v) :: kvs.drop n ∧
      (∀ j, j < n → (kvs.getD j (0, 0)).1 < key) ∧
      (∀ j, n ≤ j → j < kvs.length → key < (kvs.getD j (0, 0)).1) := by
  unfold leafInsert
  by_cases h0 : kvs.length = 0
  · rw [if_pos h0]
    have he : kvs = [] := List.length_eq_zero.mp h0
    subst he
    exact ⟨0, by omega, by simp, by omega, by omega⟩
  rw [if_neg h0]
  by_cases h1 : key > (kvs.getD (kvs.length - 1) (0, 0)).1
  · rw [if_pos h1]
    refine ⟨kvs.length, le_refl _, by simp, ?_, by omega⟩
    intro j hj
    exact lt_of_le_of_lt (kvs_sorted_le kvs hs (by omega) (by omega)) h1
  rw [if_neg h1]
  by_cases h2 : key < (kvs.getD 0 (0, 0)).1
  · rw [if_pos h2]
    refine ⟨0, Nat.zero_le _, by simp, by omega, ?_⟩
    intro j h0j hj
    exact lt_of_lt_of_le h2 (kvs_sorted_le kvs hs (Nat.zero_le j) hj)
  rw [if_neg h2]
  have hfirst : (kvs.getD 0 (0, 0)).1 < key :=
    lt_of_le_of_ne (not_lt.mp h2) (hnm 0 (by omega))
  have hlast : key < (kvs.getD (kvs.length - 1) (0, 0)).1 := by
    rcases lt_or_eq_of_le (not_lt.mp h1) with h | h
    · exact h
    · exact absurd h.symm (hnm (kvs.length - 1) (by omega))
  have hlen2 : 2 ≤ kvs.length := by
    by_contra hc
    push_neg at hc
    have h01 : kvs.length - 1 = 0 := by omega
    rw [h01] at hlast
    exact absurd (lt_trans hfirst hlast) (lt_irrefl _)
  set r := leafInsertLoop kvs key 0 ((kvs.length : Int) - 1) with hr
  have hsp := leafInsertLoop_spec kvs key hs hnm
    ((kvs.length : Int) - 1 - 0).toNat 0 ((kvs.length : Int) - 1)
    (le_refl _) (le_refl 0) (by omega) (le_refl _) hfirst
    (by
      rw [show ((kvs.length : Int) - 1).toNat = kvs.length - 1 by omega]
      exact hlast)
  rw [← hr] at hsp
  refine ⟨r.toNat, by omega, rfl, ?_, ?_⟩
  · intro j hj
    have h3 := hsp.2.2.1
    exact lt_of_le_of_lt (kvs_sorted_le kvs hs (by omega) (by omega)) h3
  · intro j hnj hj
    have h4 := hsp.2.2.2
    exact lt_of_lt_of_le h4 (kvs_sorted_le kvs hs hnj hj)

theorem leafInsert_sorted (kvs : List (Key × Rid)) (key : Key) (v : Rid)
    (hs : StrIncr (kvs.map Prod.fst))
    (hnm : ∀ i : Nat, i < kvs.length → (kvs.getD i (0, 0)).1 ≠ key) :
    StrIncr ((leafInsert kvs key v).map Prod.fst) := by
  obtain ⟨n, hn, hform, hlt, hgt⟩ := leafInsert_form kvs key v hs hnm
  rw [hform]
  unfold StrIncr at hs ⊢
  rw [List.map_append, List.map_cons]
  rw [List.pairwise_append]
  have htk : ∀ a ∈ (kvs.take n).map Prod.fst, a < key := by
    intro a ha
    rcases List.mem_map.mp ha with ⟨p, hp, he⟩
    rcases mem_take_idx (0, 0) kvs n p hp with ⟨j, hj1, hj2, hj3⟩
    rw [← he, ← hj3]
    exact hlt j hj1
  have hdk : ∀ b ∈ (kvs.drop n).map Prod.fst, key < b := by
    intro b hb
    rcases List.mem_map.mp hb with ⟨p, hp, he⟩
    rcases mem_drop_idx (0, 0) kvs n p hp with ⟨j, hj1, hj2, hj3⟩
    rw [← he, ← hj3]
    exact hgt j hj1 hj2
  refine ⟨?_, ?_, ?_⟩
  · rw [List.map_take]
    exact hs.sublist (List.take_sublist n (kvs.map Prod.fst))
  · rw [List.pairwise_cons]
    refine ⟨hdk, ?_⟩
    rw [List.map_drop]
    exact hs.sublist (List.drop_sublist n (kvs.map Prod.fst))
  · intro a ha b hb
    rcases List.mem_cons.mp hb with h | h
    · rw [h]
      exact htk a ha
    · exact lt_trans (htk a ha) (hdk b h)

theorem leafInsert_mem (kvs : List (Key × Rid)) (key : Key) (v : Rid)
    (hs : StrIncr (kvs.map Prod.fst))
    (hnm : ∀ i : Nat, i < kvs.length → (kvs.getD i (0, 0)).1 ≠ key) :
    ∀ p ∈ leafInsert kvs key v, p ∈ kvs ∨ p = (key, v) := by
  obtain ⟨n, hn, hform, hlt, hgt⟩ := leafInsert_form kvs key v hs hnm
  rw [hform]
  intro p hp
  rcases List.mem_append.mp hp with h | h
  · exact Or.inl (List.mem_of_mem_take h)
  · rcases List.mem_cons.mp h with h | h
    · exact Or.inr h
    · exact Or.inl (List.mem_of_mem_drop h)

/-! ## Size measure and slot-list bridges -/

theorem bptSize_pos : ∀ t : BPT, 1 ≤ bptSize t := by
  intro t
  cases t with
  | leaf kvs s0 => simp [bptSize]
  | node c0 rest => simp [bptSize]; omega

theorem bptListSize_cons (k : Key) (c : BPT) (rs : List (Key × BPT)) :
    bptListSize ((k, c) :: rs) = 1 + bptSize c + bptListSize rs := rfl

theorem bptListSize_getD_le :
    ∀ (rest : List (Key × BPT)) (j : Nat), j < rest.length →
      bptSize (rest.getD j dfltPair).2 + 1 ≤ bptListSize rest := by
  intro rest
  induction rest with
  | nil => intro j hj; simp at hj
  | cons q rs ih =>
    intro j hj
    obtain ⟨k, c⟩ := q
    cases j with
    | zero =>
      simp only [List.getD_cons_zero, bptListSize_cons]
      omega
    | succ j =>
      simp only [List.getD_cons_succ, bptListSize_cons]
      have := ih j (by simpa using hj)
      omega

theorem insertAuxChild_eq (M : Nat) (key : Key) (v : Rid) :
    ∀ (rest : List (Key × BPT)) (j : Nat), j < rest.length →
      insertAuxChild M rest j key v =
        insertAux M (rest.getD j dfltPair).2 key v := by
  intro rest
  induction rest with
  | nil => intro j hj; simp at hj
  | cons q rs ih =>
    intro j hj
    obtain ⟨k, c⟩ := q
    cases j with
    | zero => rfl
    | succ j =>
      rw [List.getD_cons_succ]
      rw [show insertAuxChild M ((k, c) :: rs) (j + 1) key v =
        insertAuxChild M rs j key v from rfl]
      exact ih j (by simpa using hj)

theorem removeAuxChild_eq (M : Nat) (key : Key) :
    ∀ (rest : List (Key × BPT)) (j : Nat), j < rest.length →
      removeAuxChild M rest j key =
        removeAux M false (rest.getD j dfltPair).2 key := by
  intro rest
  induction rest with
  | nil => intro j hj; simp at hj
  | cons q rs ih =>
    intro j hj
    obtain ⟨k, c⟩ := q
    cases j with
    | zero => rfl
    | succ j =>
      rw [List.getD_cons_succ]
      rw [show removeAuxChild M ((k, c) :: rs) (j + 1) key =
        removeAuxChild M rs j key from rfl]
      exact ih j (by simpa using hj)

/-! ## Every invariant subtree holds a key inside its routing interval -/

theorem inv_exists_key (M : Nat) (hM : 2 ≤ M) : ∀ n : Nat,
    (∀ (t : BPT) (lo hi : Option Key), bptSize t ≤ n →
      SubInv M lo hi t → ∃ k, lbOk lo k ∧ ubOk hi k) ∧
    (∀ (c : BPT) (rest : List (Key × BPT)) (lo hi : Option Key),
      bptSize c + bptListSize rest ≤ n → ChainInv M lo hi c rest →
      ∃ k, lbOk lo k ∧ ubOk hi k) := by
  intro n
  induction n with
  | zero =>
    constructor
    · intro t lo hi hn h
      have := bptSize_pos t
      omega
    · intro c rest lo hi hn h
      have := bptSize_pos c
      omega
  | succ n ih =>
    have hsub : ∀ (t : BPT) (lo hi : Option Key), bptSize t ≤ n + 1 →
        SubInv M lo hi t → ∃ k, lbOk lo k ∧ ubOk hi k := by
      intro t lo hi hn h
      cases t with
      | leaf kvs s0 =>
        cases h with
        | leaf h1 h2 h3 h4 h5 =>
          have hlen : 1 ≤ kvs.length := by omega
          have hmem : kvs.getD 0 (0, 0) ∈ kvs := by
            rw [getD_eq_getElem _ _ _ (by omega)]
            exact List.getElem_mem _
          exact ⟨(kvs.getD 0 (0, 0)).1, h5 _ hmem⟩
      | node c0 rest =>
        cases h with
        | node hc1 hc2 hch =>
          refine ih.2 c0 rest lo hi ?_ hch
          simp only [bptSize] at hn
          omega
    refine ⟨hsub, ?_⟩
    intro c rest lo hi hn hch
    cases hch with
    | nil h =>
      refine hsub c lo hi ?_ h
      simp only [bptListSize] at hn
      omega
    | cons hhead htail =>
      rename_i k c2 rs
      rw [bptListSize_cons] at hn
      obtain ⟨κ2, hκ2l, hκ2u⟩ := ih.2 c2 rs (some k) hi
        (by have := bptSize_pos c; omega) htail
      refine ⟨κ2, ?_, hκ2u⟩
      cases lo with
      | none => simp [lbOk]
      | some a =>
        obtain ⟨κ1, hκ1l, hκ1u⟩ := hsub c (some a) (some k)
          (le_trans (Nat.le_add_right _ _) hn) hhead
        simp only [lbOk] at hκ1l hκ2l ⊢
        simp only [ubOk] at hκ1u
        exact le_trans hκ1l (le_trans (le_of_lt hκ1u) hκ2l)

theorem chainInv_sep_bounds (M : Nat) (hM : 2 ≤ M) :
    ∀ (rest : List (Key × BPT)) (c : BPT) (lo hi : Option Key),
      ChainInv M lo hi c rest →
      ∀ p ∈ rest, (∀ a, lo = some a → a < p.1) ∧ ubOk hi p.1 := by
  intro rest
  induction rest with
  | nil => intro c lo hi hch p hp; simp at hp
  | cons q rs ih =>
    intro c lo hi hch p hp
    cases hch with
    | cons hhead htail =>
      rename_i k c2
      rcases List.mem_cons.mp hp with h | h
      · subst h
        constructor
        · intro a ha
          subst ha
          obtain ⟨κ, hκl, hκu⟩ := (inv_exists_key M hM (bptSize c)).1 c
            (some a) (some k) (le_refl _) hhead
          simp only [lbOk] at hκl
          simp only [ubOk] at hκu
          exact lt_of_le_of_lt hκl hκu
        · obtain ⟨κ2, hκ2l, hκ2u⟩ := (inv_exists_key M hM
            (bptSize c2 + bptListSize rs)).2 c2 rs (some k) hi
            (le_refl _) htail
          cases hi with
          | none => simp [ubOk]
          | some b =>
            simp only [ubOk] at hκ2u ⊢
            simp only [lbOk] at hκ2l
            exact lt_of_le_of_lt hκ2l hκ2u
      · have hrec := ih c2 (some k) hi htail p h
        refine ⟨?_, hrec.2⟩
        intro a ha
        have hk : k < p.1 := hrec.1 k rfl
        subst ha
        obtain ⟨κ, hκl, hκu⟩ := (inv_exists_key M hM (bptSize c)).1 c
          (some a) (some k) (le_refl _) hhead
        simp only [lbOk] at hκl
        simp only [ubOk] at hκu
        exact lt_trans (lt_of_le_of_lt hκl hκu) hk

theorem chainInv_keys_sorted (M : Nat) (hM : 2 ≤ M) :
    ∀ (rest : List (Key × BPT)) (c : BPT) (lo hi : Option Key),
      ChainInv M lo hi c rest →
      List.Pairwise (· < ·) (rest.map Prod.fst) := by
  intro rest
  induction rest with
  | nil => intro c lo hi h; simp
  | cons q rs ih =>
    intro c lo hi hch
    cases hch with
    | cons hhead htail =>
      rename_i k c2
      rw [List.map_cons, List.pairwise_cons]
      refine ⟨?_, ih c2 (some k) hi htail⟩
      intro b hb
      rcases List.mem_map.mp hb with ⟨p, hp, he⟩
      have := chainInv_sep_bounds M hM rs c2 (some k) hi htail p hp
      rw [← he]
      exact this.1 k rfl

/-! ## Recursion equations of the slot accessors and surgeries -/

theorem childAt_cons (c : BPT) (k : Key) (c2 : BPT)
    (rs : List (Key × BPT)) (j : Nat) :
    childAt c ((k, c2) :: rs) (j + 1) = childAt c2 rs j := by
  unfold childAt
  cases j with
  | zero => simp
  | succ j => simp [List.getD_cons_succ]

theorem loAt_cons (lo : Option Key) (k : Key) (c2 : BPT)
    (rs : List (Key × BPT)) (j : Nat) :
    loAt lo ((k, c2) :: rs) (j + 1) = loAt (some k) rs j := by
  unfold loAt
  cases j with
  | zero => simp
  | succ j => simp [List.getD_cons_succ]

theorem hiAt_cons (hi : Option Key) (k : Key) (c2 : BPT)
    (rs : List (Key × BPT)) (j : Nat) :
    hiAt hi ((k, c2) :: rs) (j + 1) = hiAt hi rs j := by
  unfold hiAt
  by_cases h : j = rs.length
  · rw [if_pos (by simp [h]), if_pos h]
  · rw [if_neg (by simp [h]), if_neg h, List.getD_cons_succ]

theorem setChild_cons (c : BPT) (k : Key) (c2 : BPT)
    (rs : List (Key × BPT)) (j : Nat) (cl : BPT) :
    setChild c ((k, c2) :: rs) (j + 1) cl =
      (c, (k, (setChild c2 rs j cl).1) :: (setChild c2 rs j cl).2) := by
  unfold setChild
  cases j with
  | zero => simp
  | succ j => simp [List.getD_cons_succ, List.set_cons_succ]

theorem setChild_zero (c : BPT) (rest : List (Key × BPT)) (cl : BPT) :
    setChild c rest 0 cl = (cl, rest) := by
  unfold setChild
  simp

theorem setChild_len (c : BPT) (rest : List (Key × BPT)) (i : Nat)
    (cl : BPT) : (setChild c rest i cl).2.length = rest.length := by
  unfold setChild
  by_cases h : i = 0
  · rw [if_pos h]
  · rw [if_neg h]
    simp

theorem insertNodeAfter_zero (rest : List (Key × BPT)) (sk : Key)
    (cr : BPT) : insertNodeAfter rest 0 sk cr = (sk, cr) :: rest := by
  unfold insertNodeAfter
  simp

theorem insertNodeAfter_cons (q : Key × BPT) (rs : List (Key × BPT))
    (j : Nat) (sk : Key) (cr : BPT) :
    insertNodeAfter (q :: rs) (j + 1) sk cr =
      q :: insertNodeAfter rs j sk cr := by
  unfold insertNodeAfter
  simp

theorem insertNodeAfter_len (rest : List (Key × BPT)) (i : Nat) (sk : Key)
    (cr : BPT) (hi : i ≤ rest.length) :
    (insertNodeAfter rest i sk cr).length = rest.length + 1 := by
  unfold insertNodeAfter
  simp
  omega

/-! ## Chain extraction and surgery -/

theorem chainInv_child (M : Nat) :
    ∀ (rest : List (Key × BPT)) (c : BPT) (lo hi : Option Key) (i : Nat),
      ChainInv M lo hi c rest → i ≤ rest.length →
      SubInv M (loAt lo rest i) (hiAt hi rest i) (childAt c rest i) := by
  intro rest
  induction rest with
  | nil =>
    intro c lo hi i hch hile
    simp at hile
    subst hile
    cases hch with
    | nil h => simpa [childAt, loAt, hiAt] using h
  | cons q rs ih =>
    intro c lo hi i hch hile
    cases hch with
    | cons hhead htail =>
      rename_i k c2
      cases i with
      | zero =>
        simpa [childAt, loAt, hiAt] using hhead
      | succ j =>
        rw [childAt_cons, loAt_cons, hiAt_cons]
        exact ih c2 (some k) hi j htail (by simpa using hile)

theorem chainInv_set (M : Nat) :
    ∀ (rest : List (Key × BPT)) (c : BPT) (lo hi : Option Key) (i : Nat)
      (cl : BPT),
      ChainInv M lo hi c rest → i ≤ rest.length →
      SubInv M (loAt lo rest i) (hiAt hi rest i) cl →
      ChainInv M lo hi (setChild c rest i cl).1 (setChild c rest i cl).2 := by
  intro rest
  induction rest with
  | nil =>
    intro c lo hi i cl hch hile hsub
    simp at hile
    subst hile
    rw [setChild_zero]
    simp only [loAt, hiAt] at hsub
    simp at hsub
    exact ChainInv.nil hsub
  | cons q rs ih =>
    intro c lo hi i cl hch hile hsub
    cases hch with
    | cons hhead htail =>
      rename_i k c2
      cases i with
      | zero =>
        rw [setChild_zero]
        simp only [loAt, hiAt] at hsub
        simp at hsub
        exact ChainInv.cons hsub htail
      | succ j =>
        rw [setChild_cons]
        rw [loAt_cons, hiAt_cons] at hsub
        exact ChainInv.cons hhead
          (ih c2 (some k) hi j cl htail (by simpa using hile) hsub)

theorem chainInv_insert (M : Nat) :
    ∀ (rest : List (Key × BPT)) (c : BPT) (lo hi : Option Key) (i : Nat)
      (cl : BPT) (sk : Key) (cr : BPT),
      ChainInv M lo hi c rest → i ≤ rest.length →
      SubInv M (loAt lo rest i) (some sk) cl →
      SubInv M (some sk) (hiAt hi rest i) cr →
      ChainInv M lo hi (setChild c rest i cl).1
        (insertNodeAfter (setChild c rest i cl).2 i sk cr) := by
  intro rest
  induction rest with
  | nil =>
    intro c lo hi i cl sk cr hch hile hl hr
    simp at hile
    subst hile
    cases hch with
    | nil h =>
      rw [setChild_zero]
      rw [insertNodeAfter_zero]
      simp only [loAt, hiAt] at hl hr
      simp at hl hr
      exact ChainInv.cons hl (ChainInv.nil hr)
  | cons q rs ih =>
    intro c lo hi i cl sk cr hch hile hl hr
    cases hch with
    | cons hhead htail =>
      rename_i k c2
      cases i with
      | zero =>
        rw [setChild_zero]
        rw [insertNodeAfter_zero]
        simp only [loAt, hiAt] at hl hr
        simp at hl hr
        exact ChainInv.cons hl (ChainInv.cons hr htail)
      | succ j =>
        rw [setChild_cons]
        rw [insertNodeAfter_cons]
        rw [loAt_cons] at hl
        rw [hiAt_cons] at hr
        exact ChainInv.cons hhead
          (ih c2 (some k) hi j cl sk cr htail (by simpa using hile) hl hr)

theorem chainInv_cut (M : Nat) :
    ∀ (rest : List (Key × BPT)) (c : BPT) (lo hi : Option Key) (L : Nat),
      ChainInv M lo hi c rest → 1 ≤ L → L ≤ rest.length →
      ChainInv M lo (some (rest.getD (L - 1) dfltPair).1) c
        (rest.take (L - 1)) ∧
      ChainInv M (some (rest.getD (L - 1) dfltPair).1) hi
        (rest.getD (L - 1) dfltPair).2 (rest.drop L) := by
  intro rest
  induction rest with
  | nil => intro c lo hi L hch h1 h2; simp at h2; omega
  | cons q rs ih =>
    intro c lo hi L hch h1 h2
    cases hch with
    | cons hhead htail =>
      rename_i k c2
      match L, h1 with
      | 1, _ =>
        simp only [List.getD_cons_zero, List.take_zero, List.drop_one]
        refine ⟨ChainInv.nil hhead, ?_⟩
        simpa using htail
      | (j + 2), _ =>
        have hj : 1 ≤ j + 1 := by omega
        have hj2 : j + 1 ≤ rs.length := by simpa using h2
        have := ih c2 (some k) hi (j + 1) htail hj hj2
        have he1 : j + 2 - 1 = (j + 1 - 1) + 1 := by omega
        rw [he1, List.getD_cons_succ, List.take_succ_cons, List.drop_succ_cons]
        exact ⟨ChainInv.cons hhead this.1, this.2⟩

/-! ## One-step equations of the recursive insertion -/

theorem rest_getD_fst (rest : List (Key × BPT)) (j : Nat)
    (hj : j < rest.length) :
    (rest.getD j dfltPair).1 = (rest.map Prod.fst).getD j 0 := by
  rw [getD_eq_getElem _ _ _ hj, getD_eq_getElem _ _ _ (by simpa using hj)]
  simp

theorem insertAux_leaf (M : Nat) (kvs : List (Key × Rid)) (s0 : Nat)
    (key : Key) (v : Rid) :
    insertAux M (.leaf kvs s0) key v =
      (match leafLookup kvs key with
       | some _ => InsRes.dup
       | none =>
         if (leafInsert kvs key v).length ≥ M then
           InsRes.split
             (.leaf ((leafInsert kvs key v).take
               ((leafInsert kvs key v).length / 2)) s0)
             (((leafInsert kvs key v).getD
               ((leafInsert kvs key v).length / 2) (0, 0)).1)
             (.leaf ((leafInsert kvs key v).drop
               ((leafInsert kvs key v).length / 2)) 0)
         else InsRes.one (.leaf (leafInsert kvs key v) s0)) := by
  unfold insertAux
  rfl

/-! ## The leaf split preserves the leaf invariants -/

theorem insertAux_leaf_split (M : Nat) (hM : 2 ≤ M)
    (kvs : List (Key × Rid)) (lo hi : Option Key) (key : Key) (v : Rid)
    (h2 : StrIncr (kvs.map Prod.fst))
    (hb : ∀ p ∈ kvs, lbOk lo p.1 ∧ ubOk hi p.1)
    (hlb : lbOk lo key) (hub : ubOk hi key)
    (hlk : leafLookup kvs key = none)
    (hfull : (leafInsert kvs key v).length = M) :
    SubInv M lo
      (some (((leafInsert kvs key v).getD
        ((leafInsert kvs key v).length / 2) (0, 0)).1))
      (.leaf ((leafInsert kvs key v).take
        ((leafInsert kvs key v).length / 2)) 0) ∧
    SubInv M
      (some (((leafInsert kvs key v).getD
        ((leafInsert kvs key v).length / 2) (0, 0)).1))
      hi
      (.leaf ((leafInsert kvs key v).drop
        ((leafInsert kvs key v).length / 2)) 0) := by
  have hnm := leafLookup_none_not_mem kvs key h2 hlk
  have hsorted := leafInsert_sorted kvs key v h2 hnm
  have hmem := leafInsert_mem kvs key v h2 hnm
  have hbounds : ∀ p ∈ leafInsert kvs key v, lbOk lo p.1 ∧ ubOk hi p.1 := by
    intro p hp
    rcases hmem p hp with h | h
    · exact hb p h
    · rw [h]
      exact ⟨hlb, hub⟩
  constructor
  · refine SubInv.leaf rfl ?_ ?_ ?_ ?_
    · rw [List.map_take]
      exact hsorted.sublist (List.take_sublist _ _)
    · rw [List.length_take]
      omega
    · rw [List.length_take]
      omega
    · intro p hp
      rcases mem_take_idx (0, 0) _ _ p hp with ⟨j, hj1, hj2, hj3⟩
      constructor
      · exact (hbounds p (List.mem_of_mem_take hp)).1
      · show p.1 < ((leafInsert kvs key v).getD
          ((leafInsert kvs key v).length / 2) (0, 0)).1
        rw [← hj3]
        exact kvs_sorted_lt _ hsorted hj1 (by omega)
  · refine SubInv.leaf rfl ?_ ?_ ?_ ?_
    · rw [List.map_drop]
      exact hsorted.sublist (List.drop_sublist _ _)
    · rw [List.length_drop]
      omega
    · rw [List.length_drop]
      omega
    · intro p hp
      rcases mem_drop_idx (0, 0) _ _ p hp with ⟨j, hj1, hj2, hj3⟩
      constructor
      · show ((leafInsert kvs key v).getD
          ((leafInsert kvs key v).length / 2) (0, 0)).1 ≤ p.1
        rw [← hj3]
        exact kvs_sorted_le _ hsorted hj1 hj2
      · exact (hbounds p (List.mem_of_mem_drop hp)).2

/-! ## The components of splitInternal -/

theorem splitInternal_parts (c0 : BPT) (rest : List (Key × BPT)) :
    (splitInternal c0 rest).1 =
      .node c0 (rest.take (rest.length + 1 - (rest.length + 1) / 2 - 1)) ∧
    (splitInternal c0 rest).2.1 =
      (rest.getD (rest.length + 1 - (rest.length + 1) / 2 - 1) dfltPair).1 ∧
    (splitInternal c0 rest).2.2 =
      .node (rest.getD (rest.length + 1 - (rest.length + 1) / 2 - 1)
        dfltPair).2
        (rest.drop (rest.length + 1 - (rest.length + 1) / 2)) := by
  unfold splitInternal
  exact ⟨rfl, rfl, rfl⟩

/-! ## The internal-node step of the recursive insertion -/

theorem insertAux_node_step (M : Nat) (hM : 2 ≤ M) (c0 : BPT)
    (rest : List (Key × BPT)) (lo hi : Option Key) (key : Key) (v : Rid)
    (hch : ChainInv M lo hi c0 rest) (hcnt : rest.length + 1 ≤ M)
    (hlb : lbOk lo key) (hub : ubOk hi key)
    (hrec : ∀ lo' hi' : Option Key,
      SubInv M lo' hi'
        (childAt c0 rest (internalLookupIdx (rest.map Prod.fst) key)) →
      lbOk lo' key → ubOk hi' key →
      (insertAux M
        (childAt c0 rest (internalLookupIdx (rest.map Prod.fst) key))
        key v = .dup) ∨
      (∃ t2, insertAux M
        (childAt c0 rest (internalLookupIdx (rest.map Prod.fst) key))
        key v = .one t2 ∧ SubInv M lo' hi' t2) ∨
      (∃ l sk r, insertAux M
        (childAt c0 rest (internalLookupIdx (rest.map Prod.fst) key))
        key v = .split l sk r ∧
        SubInv M lo' (some sk) l ∧ SubInv M (some sk) hi' r)) :
    (insertAux M (.node c0 rest) key v = .dup) ∨
    (∃ c0' rest', insertAux M (.node c0 rest) key v = .one (.node c0' rest') ∧
      ChainInv M lo hi c0' rest' ∧ rest.length ≤ rest'.length ∧
      rest'.length + 1 ≤ M) ∨
    (∃ l sk r, insertAux M (.node c0 rest) key v = .split l sk r ∧
      SubInv M lo (some sk) l ∧ SubInv M (some sk) hi r) := by
  have hks := chainInv_keys_sorted M hM rest c0 lo hi hch
  have hspec := internalLookupIdx_spec (rest.map Prod.fst) key hks
  set i := internalLookupIdx (rest.map Prod.fst) key with hidef
  have hile : i ≤ rest.length := by
    have := hspec.1
    simpa using this
  have hchild := chainInv_child M rest c0 lo hi i hch hile
  have hlb2 : lbOk (loAt lo rest i) key := by
    unfold loAt
    by_cases h : i = 0
    · rw [if_pos h]
      exact hlb
    · rw [if_neg h]
      show (rest.getD (i - 1) dfltPair).1 ≤ key
      rw [rest_getD_fst rest (i - 1) (by omega)]
      exact hspec.2.1 (by omega)
  have hub2 : ubOk (hiAt hi rest i) key := by
    unfold hiAt
    by_cases h : i = rest.length
    · rw [if_pos h]
      exact hub
    · rw [if_neg h]
      show key < (rest.getD i dfltPair).1
      rw [rest_getD_fst rest i (by omega)]
      exact hspec.2.2 (by rw [List.length_map]; omega)
  have hcall : (if i = 0 then insertAux M c0 key v
      else insertAuxChild M rest (i - 1) key v) =
      insertAux M (childAt c0 rest i) key v := by
    by_cases h : i = 0
    · rw [if_pos h]
      unfold childAt
      rw [if_pos h]
    · rw [if_neg h]
      unfold childAt
      rw [if_neg h]
      exact (insertAuxChild_eq M key v rest (i - 1) (by omega))
  rcases hrec (loAt lo rest i) (hiAt hi rest i) hchild hlb2 hub2 with
    hd | ⟨c2, hone, hsub2⟩ | ⟨cl, sk, cr, hsplit, hsubl, hsubr⟩
  · left
    unfold insertAux
    dsimp only
    rw [← hidef, hcall, hd]
  · right; left
    refine ⟨(setChild c0 rest i c2).1, (setChild c0 rest i c2).2,
      ?_, ?_, ?_, ?_⟩
    · unfold insertAux
      dsimp only
      rw [← hidef, hcall, hone]
    · exact chainInv_set M rest c0 lo hi i c2 hch hile hsub2
    · rw [setChild_len]
    · rw [setChild_len]
      exact hcnt
  · have hchain2 := chainInv_insert M rest c0 lo hi i cl sk cr hch hile
      hsubl hsubr
    have hlen2 : (insertNodeAfter (setChild c0 rest i cl).2 i sk cr).length
        = rest.length + 1 := by
      rw [insertNodeAfter_len _ i sk cr (by rw [setChild_len]; exact hile),
        setChild_len]
    by_cases hov :
      (insertNodeAfter (setChild c0 rest i cl).2 i sk cr).length + 1 > M
    · right; right
      have hMrc : (insertNodeAfter (setChild c0 rest i cl).2 i sk cr).length
          = M := by omega
      have hL1 : 1 ≤ (insertNodeAfter (setChild c0 rest i cl).2 i sk cr).length
          + 1 - ((insertNodeAfter (setChild c0 rest i cl).2 i sk cr).length
            + 1) / 2 := by omega
      have hL2 : (insertNodeAfter (setChild c0 rest i cl).2 i sk cr).length
          + 1 - ((insertNodeAfter (setChild c0 rest i cl).2 i sk cr).length
            + 1) / 2
          ≤ (insertNodeAfter (setChild c0 rest i cl).2 i sk cr).length := by
        omega
      have hcut := chainInv_cut M
        (insertNodeAfter (setChild c0 rest i cl).2 i sk cr)
        (setChild c0 rest i cl).1 lo hi
        ((insertNodeAfter (setChild c0 rest i cl).2 i sk cr).length
          + 1 - ((insertNodeAfter (setChild c0 rest i cl).2 i sk cr).length
            + 1) / 2)
        hchain2 hL1 hL2
      obtain ⟨hsp1, hsp2, hsp3⟩ := splitInternal_parts
        (setChild c0 rest i cl).1
        (insertNodeAfter (setChild c0 rest i cl).2 i sk cr)
      refine ⟨BPT.node (setChild c0 rest i cl).1
          ((insertNodeAfter (setChild c0 rest i cl).2 i sk cr).take
            ((insertNodeAfter (setChild c0 rest i cl).2 i sk cr).length
              + 1 - ((insertNodeAfter
                (setChild c0 rest i cl).2 i sk cr).length + 1) / 2 - 1)),
        ((insertNodeAfter (setChild c0 rest i cl).2 i sk cr).getD
          ((insertNodeAfter (setChild c0 rest i cl).2 i sk cr).length
            + 1 - ((insertNodeAfter
              (setChild c0 rest i cl).2 i sk cr).length + 1) / 2 - 1)
          dfltPair).1,
        BPT.node ((insertNodeAfter (setChild c0 rest i cl).2 i sk cr).getD
          ((insertNodeAfter (setChild c0 rest i cl).2 i sk cr).length
            + 1 - ((insertNodeAfter
              (setChild c0 rest i cl).2 i sk cr).length + 1) / 2 - 1)
          dfltPair).2
          ((insertNodeAfter (setChild c0 rest i cl).2 i sk cr).drop
            ((insertNodeAfter (setChild c0 rest i cl).2 i sk cr).length
              + 1 - ((insertNodeAfter
                (setChild c0 rest i cl).2 i sk cr).length + 1) / 2)),
        ?_, ?_, ?_⟩
      · unfold insertAux
        dsimp only
        rw [← hidef, hcall, hsplit]
        dsimp only
        rw [if_pos hov]
        rw [hsp1, hsp2, hsp3]
      · refine SubInv.node ?_ ?_ hcut.1
        · rw [List.length_take]
          omega
        · rw [List.length_take]
          omega
      · refine SubInv.node ?_ ?_ hcut.2
        · rw [List.length_drop]
          omega
        · rw [List.length_drop]
          omega
    · right; left
      refine ⟨_, _, ?_, hchain2, ?_, ?_⟩
      · unfold insertAux
        dsimp only
        rw [← hidef, hcall, hsplit]
        dsimp only
        rw [if_neg hov]
      · rw [hlen2]
        omega
      · rw [hlen2] at hov ⊢
        omega

/-! ## The recursive insertion preserves the subtree invariant -/

theorem childAt_size (c0 : BPT) (rest : List (Key × BPT)) (i : Nat)
    (hile : i ≤ rest.length) :
    bptSize (childAt c0 rest i) + 1 ≤ bptSize (.node c0 rest) := by
  unfold childAt
  by_cases h : i = 0
  · rw [if_pos h]
    show bptSize c0 + 1 ≤ 1 + bptSize c0 + bptListSize rest
    omega
  · rw [if_neg h]
    have hle := bptListSize_getD_le rest (i - 1) (by omega)
    show bptSize (rest.getD (i - 1) dfltPair).2 + 1 ≤
      1 + bptSize c0 + bptListSize rest
    exact le_trans hle (by omega)

theorem insertAux_spec (M : Nat) (hM : 2 ≤ M) :
    ∀ (n : Nat) (t : BPT) (lo hi : Option Key) (key : Key) (v : Rid),
      bptSize t ≤ n → SubInv M lo hi t → lbOk lo key → ubOk hi key →
      (insertAux M t key v = .dup) ∨
      (∃ t2, insertAux M t key v = .one t2 ∧ SubInv M lo hi t2) ∨
      (∃ l sk r, insertAux M t key v = .split l sk r ∧
        SubInv M lo (some sk) l ∧ SubInv M (some sk) hi r) := by
  intro n
  induction n with
  | zero =>
    intro t lo hi key v hn hinv hlb hub
    have := bptSize_pos t
    omega
  | succ n ih =>
    intro t lo hi key v hn hinv hlb hub
    cases t with
    | leaf kvs s0 =>
      cases hinv with
      | leaf h1 h2 h3 h4 h5 =>
        subst h1
        rw [insertAux_leaf]
        cases hlk : leafLookup kvs key with
        | some r =>
          left
          rfl
        | none =>
          by_cases hfull : (leafInsert kvs key v).length ≥ M
          · right; right
            have hexact : (leafInsert kvs key v).length = M := by
              have := leafInsert_length kvs key v
              omega
            have hsp := insertAux_leaf_split M hM kvs lo hi key v h2 h5
              hlb hub hlk hexact
            exact ⟨_, _, _, if_pos hfull, hsp.1, hsp.2⟩
          · right; left
            have hnm := leafLookup_none_not_mem kvs key h2 hlk
            have hsorted := leafInsert_sorted kvs key v h2 hnm
            have hmem := leafInsert_mem kvs key v h2 hnm
            have hlen := leafInsert_length kvs key v
            refine ⟨BPT.leaf (leafInsert kvs key v) 0, if_neg hfull, ?_⟩
            refine SubInv.leaf rfl hsorted (by omega) (by omega) ?_
            intro p hp
            rcases hmem p hp with h | h
            · exact h5 p h
            · rw [h]
              exact ⟨hlb, hub⟩
    | node c0 rest =>
      cases hinv with
      | node hc1 hc2 hch =>
        have hile : internalLookupIdx (rest.map Prod.fst) key ≤
            rest.length := by
          have := internalLookupIdx_le (rest.map Prod.fst) key
          simpa using this
        have hsz : bptSize (childAt c0 rest
            (internalLookupIdx (rest.map Prod.fst) key)) ≤ n := by
          have := childAt_size c0 rest _ hile
          omega
        have hstep := insertAux_node_step M hM c0 rest lo hi key v hch hc2
          hlb hub
          (fun lo' hi' hsub hl hu => ih _ lo' hi' key v hsz hsub hl hu)
        rcases hstep with hd | ⟨c0', rest', heq, hch', hlen', hcnt'⟩ | hsp
        · left
          exact hd
        · right; left
          exact ⟨.node c0' rest', heq,
            SubInv.node (by omega) hcnt' hch'⟩
        · right; right
          exact hsp

/-! ## The insertion entry point preserves the root invariant -/

theorem insertAux_root_spec (M : Nat) (hM : 2 ≤ M) (t : BPT) (key : Key)
    (v : Rid) (hinv : RootInv M t) :
    (insertAux M t key v = .dup) ∨
    (∃ t2, insertAux M t key v = .one t2 ∧ RootInv M t2) ∨
    (∃ l sk r, insertAux M t key v = .split l sk r ∧
      SubInv M none (some sk) l ∧ SubInv M (some sk) none r) := by
  cases t with
  | leaf kvs s0 =>
    cases hinv with
    | leaf h1 h2 h3 h4 =>
      subst h1
      rw [insertAux_leaf]
      cases hlk : leafLookup kvs key with
      | some r =>
        left
        rfl
      | none =>
        by_cases hfull : (leafInsert kvs key v).length ≥ M
        · right; right
          have hexact : (leafInsert kvs key v).length = M := by
            have := leafInsert_length kvs key v
            omega
          have hb : ∀ p ∈ kvs, lbOk none p.1 ∧ ubOk none p.1 := by
            intro p hp
            exact ⟨True.intro, True.intro⟩
          have hsp := insertAux_leaf_split M hM kvs none none key v h2 hb
            True.intro True.intro hlk hexact
          exact ⟨_, _, _, if_pos hfull, hsp.1, hsp.2⟩
        · right; left
          have hnm := leafLookup_none_not_mem kvs key h2 hlk
          have hsorted := leafInsert_sorted kvs key v h2 hnm
          have hlen := leafInsert_length kvs key v
          refine ⟨BPT.leaf (leafInsert kvs key v) 0, if_neg hfull, ?_⟩
          exact RootInv.leaf rfl hsorted (by omega) (by omega)
  | node c0 rest =>
    cases hinv with
    | node hc1 hc2 hch =>
      have hstep := insertAux_node_step M hM c0 rest none none key v hch hc2
        True.intro True.intro
        (fun lo' hi' hsub hl hu =>
          insertAux_spec M hM _ _ lo' hi' key v (le_refl _) hsub hl hu)
      rcases hstep with hd | ⟨c0', rest', heq, hch', hlen', hcnt'⟩ | hsp
      · left
        exact hd
      · right; left
        exact ⟨.node c0' rest', heq, RootInv.node (by omega) hcnt' hch'⟩
      · right; right
        exact hsp

theorem treeInsert_stateInv (M : Nat) (hM : 2 ≤ M) (root : Option BPT)
    (key : Key) (v : Rid) (hinv : StateInv M root) :
    StateInv M (treeInsert M root key v).2 := by
  cases root with
  | none =>
    show StateInv M (some (.leaf [(key, v)] 0))
    exact RootInv.leaf rfl (by simp [StrIncr]) (by simp) (by simp; omega)
  | some t =>
    have hroot : RootInv M t := hinv
    rcases insertAux_root_spec M hM t key v hroot with
      hd | ⟨t2, heq, h2⟩ | ⟨l, sk, r, heq, hl, hr⟩
    · unfold treeInsert
      dsimp only
      rw [hd]
      exact hroot
    · unfold treeInsert
      dsimp only
      rw [heq]
      exact h2
    · unfold treeInsert
      dsimp only
      rw [heq]
      exact RootInv.node (by simp) (by simp; omega)
        (ChainInv.cons hl (ChainInv.nil hr))

/-! ## Remove is the identity on invariant trees: RemoveAndDeleteRecord
reads the legacy size_ field, which the invariant pins at zero -/

theorem removeAux_leaf (M : Nat) (kvs : List (Key × Rid)) (s0 : Nat)
    (isRoot : Bool) (key : Key) :
    removeAux M isRoot (.leaf kvs s0) key =
      (if (leafRemoveAndDeleteRecord kvs s0 key).2 ≠ kvs.length then
        if isRoot then
          if (leafRemoveAndDeleteRecord kvs s0 key).1.length = 0 then
            some none
          else some (some (.leaf (leafRemoveAndDeleteRecord kvs s0 key).1
            (leafRemoveAndDeleteRecord kvs s0 key).2))
        else if (leafRemoveAndDeleteRecord kvs s0 key).1.length ≥
            (M + 1) / 2 - 1 then
          some (some (.leaf (leafRemoveAndDeleteRecord kvs s0 key).1
            (leafRemoveAndDeleteRecord kvs s0 key).2))
        else none
      else some (some (.leaf (leafRemoveAndDeleteRecord kvs s0 key).1
        (leafRemoveAndDeleteRecord kvs s0 key).2))) := by
  unfold removeAux
  rfl

theorem leafRemove_s0_zero (kvs : List (Key × Rid)) (key : Key) :
    leafRemoveAndDeleteRecord kvs 0 key = (kvs, 0) := by
  unfold leafRemoveAndDeleteRecord
  rw [if_pos rfl]

theorem setChild_id (c0 : BPT) (rest : List (Key × BPT)) (i : Nat)
    (hile : i ≤ rest.length) :
    setChild c0 rest i (childAt c0 rest i) = (c0, rest) := by
  unfold setChild childAt
  by_cases h : i = 0
  · simp only [if_pos h]
  · simp only [if_neg h]
    rw [Prod.mk.eta]
    rw [list_set_getD rest (i - 1) dfltPair (by omega)]

theorem removeAux_node_id (M : Nat) (c0 : BPT) (rest : List (Key × BPT))
    (key : Key) (isRoot : Bool)
    (hrec : removeAux M false
        (childAt c0 rest (internalLookupIdx (rest.map Prod.fst) key)) key =
      some (some
        (childAt c0 rest (internalLookupIdx (rest.map Prod.fst) key)))) :
    removeAux M isRoot (.node c0 rest) key = some (some (.node c0 rest)) := by
  have hile : internalLookupIdx (rest.map Prod.fst) key ≤ rest.length := by
    have := internalLookupIdx_le (rest.map Prod.fst) key
    simpa using this
  have hcall : (if internalLookupIdx (rest.map Prod.fst) key = 0 then
      removeAux M false c0 key
    else removeAuxChild M rest
      (internalLookupIdx (rest.map Prod.fst) key - 1) key) =
      removeAux M false
        (childAt c0 rest (internalLookupIdx (rest.map Prod.fst) key))
        key := by
    by_cases h : internalLookupIdx (rest.map Prod.fst) key = 0
    · rw [if_pos h]
      unfold childAt
      rw [if_pos h]
    · rw [if_neg h]
      unfold childAt
      rw [if_neg h]
      exact removeAuxChild_eq M key rest _ (by omega)
  unfold removeAux
  dsimp only
  rw [hcall, hrec]
  dsimp only
  rw [setChild_id c0 rest _ hile]

theorem removeAux_id (M : Nat) (hM : 2 ≤ M) :
    ∀ (n : Nat) (t : BPT) (lo hi : Option Key) (key : Key),
      bptSize t ≤ n → SubInv M lo hi t →
      removeAux M false t key = some (some t) := by
  intro n
  induction n with
  | zero =>
    intro t lo hi key hn hinv
    have := bptSize_pos t
    omega
  | succ n ih =>
    intro t lo hi key hn hinv
    cases t with
    | leaf kvs s0 =>
      cases hinv with
      | leaf h1 h2 h3 h4 h5 =>
        subst h1
        rw [removeAux_leaf, leafRemove_s0_zero]
        dsimp only
        rw [if_pos (by omega : (0 : Nat) ≠ kvs.length)]
        rw [if_neg (by simp : ¬ (false = true))]
        rw [if_pos (by omega : kvs.length ≥ (M + 1) / 2 - 1)]
    | node c0 rest =>
      cases hinv with
      | node hc1 hc2 hch =>
        have hile : internalLookupIdx (rest.map Prod.fst) key ≤
            rest.length := by
          have := internalLookupIdx_le (rest.map Prod.fst) key
          simpa using this
        have hsz : bptSize (childAt c0 rest
            (internalLookupIdx (rest.map Prod.fst) key)) ≤ n := by
          have := childAt_size c0 rest _ hile
          omega
        exact removeAux_node_id M c0 rest key false
          (ih _ (loAt lo rest _) (hiAt hi rest _) key hsz
            (chainInv_child M rest c0 lo hi _ hch hile))

theorem removeAux_root_id (M : Nat) (hM : 2 ≤ M) (t : BPT) (key : Key)
    (hinv : RootInv M t) : removeAux M true t key = some (some t) := by
  cases t with
  | leaf kvs s0 =>
    cases hinv with
    | leaf h1 h2 h3 h4 =>
      subst h1
      rw [removeAux_leaf, leafRemove_s0_zero]
      dsimp only
      rw [if_pos (by omega : (0 : Nat) ≠ kvs.length)]
      rw [if_pos rfl]
      rw [if_neg (by omega : ¬ kvs.length = 0)]
  | node c0 rest =>
    cases hinv with
    | node hc1 hc2 hch =>
      have hile : internalLookupIdx (rest.map Prod.fst) key ≤
          rest.length := by
        have := internalLookupIdx_le (rest.map Prod.fst) key
        simpa using this
      exact removeAux_node_id M c0 rest key true
        (removeAux_id M hM _ _ (loAt none rest _) (hiAt none rest _) key
          (le_refl _) (chainInv_child M rest c0 none none _ hch hile))

theorem treeRemove_id (M : Nat) (hM : 2 ≤ M) (root : Option BPT)
    (key : Key) (hinv : StateInv M root) :
    treeRemove M root key = some root := by
  cases root with
  | none => rfl
  | some t => exact removeAux_root_id M hM t key hinv

/-! ## Every state reachable by index operations satisfies the invariant -/

theorem applyTreeOp_inv (M : Nat) (hM : 2 ≤ M) (s : Option BPT)
    (op : TreeOp) (hinv : StateInv M s) :
    ∀ s2, applyTreeOp M s op = some s2 → StateInv M s2 := by
  intro s2 h
  cases op with
  | ins k v =>
    unfold applyTreeOp at h
    dsimp only at h
    injection h with h
    subst h
    exact treeInsert_stateInv M hM s k v hinv
  | del k =>
    unfold applyTreeOp at h
    dsimp only at h
    rw [treeRemove_id M hM s k hinv] at h
    injection h with h
    subst h
    exact hinv

theorem applyTreeOps_inv (M : Nat) (hM : 2 ≤ M) :
    ∀ (ops : List TreeOp) (s0 : Option BPT), StateInv M s0 →
      ∀ s, ops.foldlM (fun s op => applyTreeOp M s op) s0 = some s →
      StateInv M s := by
  intro ops
  induction ops with
  | nil =>
    intro s0 h0 s h
    simp only [List.foldlM_nil] at h
    injection h with h
    subst h
    exact h0
  | cons op ops ih =>
    intro s0 h0 s h
    rw [List.foldlM_cons] at h
    cases happ : applyTreeOp M s0 op with
    | none =>
      rw [happ] at h
      exact Option.noConfusion h
    | some s1 =>
      rw [happ] at h
      exact ih s1 (applyTreeOp_inv M hM s0 op h0 s1 happ) s h

/-! ## The invariant implies the claimed per-node properties -/

theorem chainInv_head_sub (M : Nat) (c : BPT) (rest : List (Key × BPT))
    (lo hi : Option Key) (h : ChainInv M lo hi c rest) :
    ∃ hi', SubInv M lo hi' c := by
  cases h with
  | nil h => exact ⟨hi, h⟩
  | cons hh ht => exact ⟨_, hh⟩

theorem chainInv_mem_sub (M : Nat) :
    ∀ (rest : List (Key × BPT)) (c : BPT) (lo hi : Option Key),
      ChainInv M lo hi c rest →
      ∀ p ∈ rest, ∃ lo' hi', SubInv M lo' hi' p.2 := by
  intro rest
  induction rest with
  | nil => intro c lo hi h p hp; simp at hp
  | cons q rs ih =>
    intro c lo hi hch p hp
    cases hch with
    | cons hhead htail =>
      rename_i k c2
      rcases List.mem_cons.mp hp with h | h
      · subst h
        obtain ⟨hi', hs⟩ := chainInv_head_sub M c2 rs (some k) hi htail
        exact ⟨some k, hi', hs⟩
      · exact ih c2 (some k) hi htail p h

theorem bptListSize_mem_le :
    ∀ (rest : List (Key × BPT)) (p : Key × BPT), p ∈ rest →
      bptSize p.2 + 1 ≤ bptListSize rest := by
  intro rest
  induction rest with
  | nil => intro p hp; simp at hp
  | cons q rs ih =>
    intro p hp
    obtain ⟨k, c⟩ := q
    rw [bptListSize_cons]
    rcases List.mem_cons.mp hp with h | h
    · subst h
      dsimp only
      omega
    · have := ih p h
      omega

theorem subInv_C2Prop (M : Nat) (hM : 2 ≤ M) :
    ∀ (n : Nat) (t : BPT) (lo hi : Option Key), bptSize t ≤ n →
      SubInv M lo hi t → C2Prop M false t := by
  intro n
  induction n with
  | zero =>
    intro t lo hi hn hinv
    have := bptSize_pos t
    omega
  | succ n ih =>
    intro t lo hi hn hinv
    cases t with
    | leaf kvs s0 =>
      cases hinv with
      | leaf h1 h2 h3 h4 h5 =>
        exact C2Prop.leaf h2 (fun _ => ⟨h3, h4⟩)
    | node c0 rest =>
      cases hinv with
      | node hc1 hc2 hch =>
        refine C2Prop.node (chainInv_keys_sorted M hM rest c0 lo hi hch)
          (fun _ => ⟨hc1, hc2⟩) ?_ ?_
        · obtain ⟨hi', hs⟩ := chainInv_head_sub M c0 rest lo hi hch
          refine ih c0 lo hi' ?_ hs
          show bptSize c0 ≤ n
          have : bptSize (BPT.node c0 rest) =
            1 + bptSize c0 + bptListSize rest := rfl
          omega
        · intro p hp
          obtain ⟨lo', hi', hs⟩ := chainInv_mem_sub M rest c0 lo hi hch p hp
          refine ih p.2 lo' hi' ?_ hs
          have h1 := bptListSize_mem_le rest p hp
          have h2 : bptSize (BPT.node c0 rest) =
            1 + bptSize c0 + bptListSize rest := rfl
          omega

theorem rootInv_C2Prop (M : Nat) (hM : 2 ≤ M) (t : BPT)
    (h : RootInv M t) : C2Prop M true t := by
  cases t with
  | leaf kvs s0 =>
    cases h with
    | leaf h1 h2 h3 h4 =>
      exact C2Prop.leaf h2 (fun hc => absurd hc (by simp))
  | node c0 rest =>
    cases h with
    | node hc1 hc2 hch =>
      refine C2Prop.node (chainInv_keys_sorted M hM rest c0 none none hch)
        (fun hc => absurd hc (by simp)) ?_ ?_
      · obtain ⟨hi', hs⟩ := chainInv_head_sub M c0 rest none none hch
        exact subInv_C2Prop M hM (bptSize c0) c0 none hi' (le_refl _) hs
      · intro p hp
        obtain ⟨lo', hi', hs⟩ := chainInv_mem_sub M rest c0 none none hch p hp
        exact subInv_C2Prop M hM (bptSize p.2) p.2 lo' hi' (le_refl _) hs

/-- C2: after any complete sequence of B+tree insert and remove
operations with configured order M ≥ 2, starting from the empty index,
the resulting tree satisfies the claimed structural invariants: every
non-root internal node has between ceil(M/2) and M children, every
non-root leaf has between ceil((M-1)/2) = M/2 and M-1 keys, and the
keys within every node are strictly increasing (C2Prop; the root is
exempt from the occupancy bounds). -/
theorem tree_invariants_after_any_ops (M : Nat) (hM : 2 ≤ M)
    (ops : List TreeOp) (t : BPT)
    (h : applyTreeOps M ops = some (some t)) : C2Prop M true t := by
  have hinv := applyTreeOps_inv M hM ops none True.intro (some t) h
  exact rootInv_C2Prop M hM t hinv

theorem tree_invariants_after_any_ops_witness :
    2 ≤ 3 ∧ C2Prop 3 true (.leaf [(1, 10)] 0) :=
  ⟨by decide,
   tree_invariants_after_any_ops 3 (by decide) [TreeOp.ins 1 10] _ rfl⟩

end Cmudb
